import Mathlib

/-!
ILA model of the SHA accelerator control interface.

A shallow embedding of the instruction-level abstraction built by the
constructor `SHA::SHA` in `src/src/sha_ila.cc` (constants from
`src/include/sha_ila.h`).  Bit-vector expressions are evaluated to a pair of
a width and a natural-number value; an instruction is a decode predicate plus
an update map; a step applies the update map and keeps every state variable
that the map does not mention.
-/

namespace SHA

/-! ## Constants of `sha_ila.h` -/

def SHA_START : Nat := 0xfe00
def SHA_STATE : Nat := 0xfe01
def SHA_RD_ADDR : Nat := 0xfe02
def SHA_WR_ADDR : Nat := 0xfe04
def SHA_LEN : Nat := 0xfe06
def SHA_ADDR_END : Nat := 0xfe10

def CMD_NOP : Nat := 0
def CMD_READ : Nat := 1
def CMD_WRITE : Nat := 2

def SHA_STATE_IDLE : Nat := 0
def SHA_STATE_READ_DATA : Nat := 1
def SHA_STATE_OP1 : Nat := 2
def SHA_STATE_OP2 : Nat := 3
def SHA_STATE_WRITE_DATA : Nat := 4

/-! ## Bit-vector values of the expression substrate -/

/-- The value of a bit-vector expression: its sort width and its unsigned value. -/
structure Bv where
  width : Nat
  val : Nat
deriving DecidableEq

/-- Bit-vector constant `BvConst(v, w)`. -/
def BvConst (v w : Nat) : Bv := ⟨w, v % 2 ^ w⟩

/-- Concatenation `Concat(hi, lo)`: `hi` supplies the most significant bits. -/
def Concat (hi lo : Bv) : Bv := ⟨hi.width + lo.width, hi.val * 2 ^ lo.width + lo.val⟩

/-- Bit-range selection `e(hi, lo)`: bits `hi` down to `lo` of `e`. -/
def Extract (e : Bv) (hi lo : Nat) : Bv := ⟨hi - lo + 1, e.val / 2 ^ lo % 2 ^ (hi - lo + 1)⟩

/-- Conditional selection `Ite(c, t, e)`. -/
def Ite (c : Bool) (t e : Bv) : Bv := if c then t else e

/-- Comparison of an expression with an integer constant, `e == c`. -/
def EqC (e : Bv) (c : Nat) : Bool := e.val == c

/-! ## Inputs and architectural state -/

/-- The inputs `cmd` (2 bit), `cmdaddr` (16 bit), `cmddata` (8 bit). -/
structure Inputs where
  cmd : Nat
  cmdaddr : Nat
  cmddata : Nat

/-- The state variables `dataout` (8 bit), `sha_state` (3 bit), `sha_rdaddr`,
`sha_wraddr`, `sha_len` (16 bit each) and the memory `XRAM` (16-bit addresses,
8-bit cells). -/
structure ShaState where
  dataout : Nat
  state : Nat
  rdaddr : Nat
  wraddr : Nat
  oplen : Nat
  xram : Nat → Nat

/-- Inputs within the ranges of their declared widths. -/
def Inputs.wf (i : Inputs) : Prop := i.cmd < 2 ^ 2 ∧ i.cmdaddr < 2 ^ 16 ∧ i.cmddata < 2 ^ 8

/-- State variables within the ranges of their declared widths. -/
def ShaState.wf (s : ShaState) : Prop :=
  s.dataout < 2 ^ 8 ∧ s.state < 2 ^ 3 ∧ s.rdaddr < 2 ^ 16 ∧ s.wraddr < 2 ^ 16 ∧
    s.oplen < 2 ^ 16 ∧ ∀ a, s.xram a < 2 ^ 8

def cmdE (i : Inputs) : Bv := ⟨2, i.cmd⟩
def cmdaddrE (i : Inputs) : Bv := ⟨16, i.cmdaddr⟩
def cmddataE (i : Inputs) : Bv := ⟨8, i.cmddata⟩
def dataoutE (s : ShaState) : Bv := ⟨8, s.dataout⟩
def stateE (s : ShaState) : Bv := ⟨3, s.state⟩
def rdaddrE (s : ShaState) : Bv := ⟨16, s.rdaddr⟩
def wraddrE (s : ShaState) : Bv := ⟨16, s.wraddr⟩
def oplenE (s : ShaState) : Bv := ⟨16, s.oplen⟩

/-! ## Helpers declared in `sha_ila.h` -/

/-- Modelled from the spec: the body of `SHA::slice_read` is not among the
sources (only its declaration in `sha_ila.h` and its callers are).  Spec 4.1:
a cascade of conditional selects comparing `idx` against `base_addr + k` for
`k = 0 … no_slice-1`; branch `k` extracts bits
`[(k+1)*slice_width-1 : k*slice_width]`; the fallthrough is the last slice.
`slice_read_from k r` is the cascade from branch `k` with `r` branches after it. -/
def slice_read_from (reg idx : Bv) (base_addr slice_width : Nat) : Nat → Nat → Bv
  | k, 0 => Extract reg ((k + 1) * slice_width - 1) (k * slice_width)
  | k, r + 1 =>
    Ite (EqC idx (base_addr + k))
      (Extract reg ((k + 1) * slice_width - 1) (k * slice_width))
      (slice_read_from reg idx base_addr slice_width (k + 1) r)

/-- Modelled from the spec: `SHA::slice_read(reg, idx, base_addr, no_slice,
slice_width)`, whose body is not among the sources; the cascade of spec 4.1
over the slices `0 … no_slice-1`. -/
def slice_read (reg idx : Bv) (base_addr no_slice slice_width : Nat) : Bv :=
  slice_read_from reg idx base_addr slice_width 0 (no_slice - 1)

/-- Modelled from the spec: the body of `SHA::slice_update` is not among the
sources.  Spec 4.1: the concatenation, for each slice position, of a
conditional select between `input_slice` and the corresponding bits of the old
`reg`; slice `no_slice-1` is the most significant. -/
def slice_update (reg idx input_slice : Bv) (base_addr : Nat) :
    (no_slice : Nat) → (slice_width : Nat) → Bv
  | 0, _ => ⟨0, 0⟩
  | 1, slice_width =>
    Ite (EqC idx base_addr) input_slice (Extract reg (slice_width - 1) 0)
  | k + 2, slice_width =>
    Concat
      (Ite (EqC idx (base_addr + (k + 1))) input_slice
        (Extract reg ((k + 2) * slice_width - 1) ((k + 1) * slice_width)))
      (slice_update reg idx input_slice base_addr (k + 1) slice_width)

/-- Modelled from the spec: `SHA::unknown(width)` applied to no argument, whose
body is not among the sources.  Spec 4.2: a fresh 0-ary uninterpreted function
of the given width; `interp` is the value an interpretation gives the fresh
symbol, which as a `width`-bit value is taken modulo `2 ^ width`. -/
def unknown (width : Nat) (interp : Nat) : Bv := ⟨width, interp % 2 ^ width⟩

/-! ## The instructions -/

inductive Instr where
  | WRITE_RD_ADDR
  | WRITE_WR_ADDR
  | WRITE_LEN
  | READ_RD_ADDR
  | READ_WR_ADDR
  | READ_LEN
  | START_SHA
deriving DecidableEq

/-- The model's state variables, the memory included. -/
inductive StateVar where
  | dataout
  | state
  | rdaddr
  | wraddr
  | oplen
  | xram
deriving DecidableEq

/-- The shortcut `is_status_idle = (state == SHA_STATE_IDLE)`. -/
def is_status_idle (s : ShaState) : Bool := EqC (stateE s) SHA_STATE_IDLE

/-- The decode predicates set by `SetDecode`, comparisons unsigned
(`SetUnsignedComparison(true)` in `HandleArguments`). -/
def decode : Instr → Inputs → ShaState → Bool
  | .WRITE_RD_ADDR, i, _ =>
    EqC (cmdE i) CMD_WRITE && decide (i.cmdaddr ≥ SHA_RD_ADDR) &&
      decide (i.cmdaddr < SHA_RD_ADDR + 2)
  | .WRITE_WR_ADDR, i, _ =>
    EqC (cmdE i) CMD_WRITE && decide (i.cmdaddr ≥ SHA_WR_ADDR) &&
      decide (i.cmdaddr < SHA_WR_ADDR + 2)
  | .WRITE_LEN, i, _ =>
    EqC (cmdE i) CMD_WRITE && decide (i.cmdaddr ≥ SHA_LEN) &&
      decide (i.cmdaddr < SHA_LEN + 2)
  | .READ_RD_ADDR, i, _ =>
    EqC (cmdE i) CMD_READ && decide (i.cmdaddr ≥ SHA_RD_ADDR) &&
      decide (i.cmdaddr < SHA_RD_ADDR + 2)
  | .READ_WR_ADDR, i, _ =>
    EqC (cmdE i) CMD_READ && decide (i.cmdaddr ≥ SHA_WR_ADDR) &&
      decide (i.cmdaddr < SHA_WR_ADDR + 2)
  | .READ_LEN, i, _ =>
    EqC (cmdE i) CMD_READ && decide (i.cmdaddr ≥ SHA_LEN) &&
      decide (i.cmdaddr < SHA_LEN + 2)
  | .START_SHA, i, _ =>
    EqC (cmdE i) CMD_WRITE && EqC (cmdaddrE i) SHA_START && EqC (cmddataE i) 1

/-- An update expression: bit-vector valued or memory valued, evaluated on the
inputs, the interpretation of the fresh unknown symbol and the pre-state. -/
inductive UpdateExpr where
  | bv (f : Inputs → Nat → ShaState → Bv)
  | mem (f : Inputs → Nat → ShaState → Nat → Nat)

/-- The update of `WRITE_RD_ADDR` (`sha_ila.cc` lines 43-50). -/
def write_rd_addr_update (i : Inputs) (s : ShaState) : Bv :=
  Ite (is_status_idle s)
    (Concat
      (Ite (EqC (cmdaddrE i) (SHA_RD_ADDR + 1)) (cmddataE i) (Extract (rdaddrE s) 15 8))
      (Ite (EqC (cmdaddrE i) SHA_RD_ADDR) (cmddataE i) (Extract (rdaddrE s) 7 0)))
    (rdaddrE s)

/-- The update of `WRITE_WR_ADDR` (`sha_ila.cc` lines 59-66). -/
def write_wr_addr_update (i : Inputs) (s : ShaState) : Bv :=
  Ite (is_status_idle s)
    (Concat
      (Ite (EqC (cmdaddrE i) (SHA_WR_ADDR + 1)) (cmddataE i) (Extract (wraddrE s) 15 8))
      (Ite (EqC (cmdaddrE i) SHA_WR_ADDR) (cmddataE i) (Extract (wraddrE s) 7 0)))
    (wraddrE s)

/-- The update of `WRITE_LEN` (`sha_ila.cc` lines 74-81). -/
def write_len_update (i : Inputs) (s : ShaState) : Bv :=
  Ite (is_status_idle s)
    (Concat
      (Ite (EqC (cmdaddrE i) (SHA_LEN + 1)) (cmddataE i) (Extract (oplenE s) 15 8))
      (Ite (EqC (cmdaddrE i) SHA_LEN) (cmddataE i) (Extract (oplenE s) 7 0)))
    (oplenE s)

/-- The update of `START_SHA` (`sha_ila.cc` line 120):
`Ite(is_status_idle, BvConst(1, 2), unknown(2)())`. -/
def start_sha_update (u : Nat) (s : ShaState) : Bv :=
  Ite (is_status_idle s) (BvConst 1 2) (unknown 2 u)

/-- The update maps set by `SetUpdate`: one entry per instruction. -/
def updates : Instr → List (StateVar × UpdateExpr)
  | .WRITE_RD_ADDR => [(.rdaddr, .bv fun i _ s => write_rd_addr_update i s)]
  | .WRITE_WR_ADDR => [(.wraddr, .bv fun i _ s => write_wr_addr_update i s)]
  | .WRITE_LEN => [(.oplen, .bv fun i _ s => write_len_update i s)]
  | .READ_RD_ADDR =>
    [(.dataout, .bv fun i _ s => slice_read (rdaddrE s) (cmdaddrE i) SHA_RD_ADDR 2 8)]
  | .READ_WR_ADDR =>
    [(.dataout, .bv fun i _ s => slice_read (wraddrE s) (cmdaddrE i) SHA_WR_ADDR 2 8)]
  | .READ_LEN =>
    [(.dataout, .bv fun i _ s => slice_read (oplenE s) (cmdaddrE i) SHA_LEN 2 8)]
  | .START_SHA => [(.state, .bv fun _ u s => start_sha_update u s)]

/-- The update expression an update map holds for a state variable, if any. -/
def lookupUpdate (v : StateVar) : List (StateVar × UpdateExpr) → Option UpdateExpr
  | [] => none
  | (w, e) :: rest => if w = v then some e else lookupUpdate v rest

/-- Next value of a bit-vector state variable: the value of its update
expression when the map has one, else its pre-step value. -/
def nextBv (m : List (StateVar × UpdateExpr)) (v : StateVar) (i : Inputs) (u : Nat)
    (s : ShaState) (old : Nat) : Nat :=
  match lookupUpdate v m with
  | some (.bv f) => (f i u s).val
  | _ => old

/-- Next value of the memory: its update when the map has one, else unchanged. -/
def nextMem (m : List (StateVar × UpdateExpr)) (i : Inputs) (u : Nat) (s : ShaState) :
    Nat → Nat :=
  match lookupUpdate .xram m with
  | some (.mem f) => f i u s
  | _ => s.xram

/-- One step executing instruction `ins` on inputs `i` from pre-state `s`;
`u` interprets the fresh unknown symbol. -/
def step (ins : Instr) (i : Inputs) (u : Nat) (s : ShaState) : ShaState :=
  { dataout := nextBv (updates ins) .dataout i u s s.dataout
    state := nextBv (updates ins) .state i u s s.state
    rdaddr := nextBv (updates ins) .rdaddr i u s s.rdaddr
    wraddr := nextBv (updates ins) .wraddr i u s s.wraddr
    oplen := nextBv (updates ins) .oplen i u s s.oplen
    xram := nextMem (updates ins) i u s }

/-- The seven instructions in the order they are registered. -/
def allInstrs : List Instr :=
  [.WRITE_RD_ADDR, .WRITE_WR_ADDR, .WRITE_LEN, .READ_RD_ADDR, .READ_WR_ADDR, .READ_LEN,
    .START_SHA]

/-- The update target of each instruction. -/
def target : Instr → StateVar
  | .WRITE_RD_ADDR => .rdaddr
  | .WRITE_WR_ADDR => .wraddr
  | .WRITE_LEN => .oplen
  | .READ_RD_ADDR => .dataout
  | .READ_WR_ADDR => .dataout
  | .READ_LEN => .dataout
  | .START_SHA => .state

/-- The states `s` and `t` agree on every state variable other than `v`. -/
def agreeOff (v : StateVar) (s t : ShaState) : Prop :=
  (v ≠ .dataout → t.dataout = s.dataout) ∧ (v ≠ .state → t.state = s.state) ∧
    (v ≠ .rdaddr → t.rdaddr = s.rdaddr) ∧ (v ≠ .wraddr → t.wraddr = s.wraddr) ∧
    (v ≠ .oplen → t.oplen = s.oplen) ∧ (v ≠ .xram → t.xram = s.xram)

/-- A state used to instantiate the theorems at concrete inputs. -/
def sampleState : ShaState := ⟨0, 0, 0xabcd, 0x1234, 0x0040, fun _ => 0⟩

/-- A busy state (`sha_state = OP1`) used to instantiate the theorems. -/
def busyState : ShaState := ⟨0, 2, 0xabcd, 0x1234, 0x0040, fun _ => 0⟩

/-! ## Fetch, valid, sorts and runs -/

/-- The fetch expression `Concat(cmd, Concat(cmdaddr, cmddata))` (`sha_ila.cc` line 28). -/
def fetch (i : Inputs) : Bv := Concat (cmdE i) (Concat (cmdaddrE i) (cmddataE i))

/-- The valid predicate `(cmd == 1) | (cmd == 2)` (`sha_ila.cc` line 30). -/
def valid (i : Inputs) (_s : ShaState) : Bool := EqC (cmdE i) 1 || EqC (cmdE i) 2

/-- The declared width of each bit-vector state variable (`sha_ila.cc` lines
15-19); the memory `XRAM` has no bit-vector sort. -/
def bvWidth : StateVar → Option Nat
  | .dataout => some 8
  | .state => some 3
  | .rdaddr => some 16
  | .wraddr => some 16
  | .oplen => some 16
  | .xram => none

/-- Every update expression of the instruction has the sort of the state
variable it is assigned to. -/
def wellSorted (ins : Instr) (i : Inputs) (u : Nat) (s : ShaState) : Bool :=
  (updates ins).all fun p =>
    match p.2 with
    | .bv f => bvWidth p.1 == some (f i u s).width
    | .mem _ => p.1 == .xram

/-- The instruction that fires on a step: the one whose decode holds, if any. -/
def fired (i : Inputs) (s : ShaState) : Option Instr :=
  allInstrs.find? fun ins => decode ins i s

/-- One step of the model: the firing instruction is executed, and nothing
happens when no instruction decodes. -/
def next (i : Inputs) (u : Nat) (s : ShaState) : ShaState :=
  match fired i s with
  | some ins => step ins i u s
  | none => s

/-- The states reached along a sequence of steps, one per step; each step
carries its inputs and its interpretation of the unknown. -/
def run : List (Inputs × Nat) → ShaState → List ShaState
  | [], _ => []
  | x :: xs, s => next x.1 x.2 s :: run xs (next x.1 x.2 s)

/-- Along the sequence of steps from `s`, `START_SHA` is never the firing
instruction. -/
def startNeverFires : List (Inputs × Nat) → ShaState → Prop
  | [], _ => True
  | x :: xs, s => fired x.1 s ≠ some .START_SHA ∧ startNeverFires xs (next x.1 x.2 s)

/-! ## Decode disjointness -/

/-- In a duplicate-free list, a predicate no two different elements satisfy
together selects at most one element. -/
theorem filter_length_le_one {α : Type} (p : α → Bool)
    (hp : ∀ a b : α, a ≠ b → ¬ (p a = true ∧ p b = true)) :
    ∀ l : List α, l.Nodup → (l.filter p).length ≤ 1
  | [], _ => by simp
  | x :: xs, hnd => by
    have hx : x ∉ xs := (List.nodup_cons.mp hnd).1
    have hxs : xs.Nodup := (List.nodup_cons.mp hnd).2
    cases hpx : p x with
    | false =>
      rw [List.filter_cons_of_neg (by simp [hpx])]
      exact filter_length_le_one p hp xs hxs
    | true =>
      have hnil : xs.filter p = [] := by
        rw [List.filter_eq_nil_iff]
        intro y hy hpy
        exact hp x y (fun h => hx (h ▸ hy)) ⟨hpx, hpy⟩
      rw [List.filter_cons_of_pos (by simp [hpx]), hnil]
      simp

/-- C1: for every valuation of the inputs and of the state, every pair of two
different instructions among the seven has jointly unsatisfiable decode
predicates, so at most one of the seven decodes is true. -/
theorem decode_disjoint (i : Inputs) (s : ShaState) :
    (∀ a b : Instr, a ≠ b → ¬ (decode a i s = true ∧ decode b i s = true)) ∧
      (allInstrs.filter fun a => decode a i s).length ≤ 1 := by
  obtain ⟨c, ad, d⟩ := i
  have key : ∀ a b : Instr, a ≠ b →
      ¬ (decode a ⟨c, ad, d⟩ s = true ∧ decode b ⟨c, ad, d⟩ s = true) := by
    intro x y hxy
    cases x <;> cases y <;>
      simp [decode, EqC, cmdE, cmdaddrE, cmddataE, CMD_WRITE, CMD_READ, SHA_RD_ADDR,
        SHA_WR_ADDR, SHA_LEN, SHA_START] at hxy ⊢ <;> omega
  exact ⟨key, filter_length_le_one _ key allInstrs (by decide)⟩

/-- C1 at a concrete input: a write to `0xfe02` decodes `WRITE_RD_ADDR` and
nothing else. -/
theorem decode_disjoint_witness :
    (∀ a b : Instr, a ≠ b →
      ¬ (decode a ⟨2, 0xfe02, 1⟩ sampleState = true ∧
        decode b ⟨2, 0xfe02, 1⟩ sampleState = true)) ∧
      (allInstrs.filter fun a => decode a ⟨2, 0xfe02, 1⟩ sampleState).length ≤ 1 :=
  decode_disjoint ⟨2, 0xfe02, 1⟩ sampleState

/-! ## Frame property and busy-lock -/

/-- C2: for each of the seven instructions and every pre-state, input valuation
and interpretation of the unknown, every state variable other than the
instruction's update target keeps its pre-step value: `WRITE_RD_ADDR` changes at
most `rdaddr`, `WRITE_WR_ADDR` at most `wraddr`, `WRITE_LEN` at most `oplen`, the
three reads at most `dataout`, `START_SHA` at most `state`; `XRAM` is unchanged
by every instruction, and each update map mentions its target only. -/
theorem frame_property (i : Inputs) (u : Nat) (s : ShaState) :
    agreeOff .rdaddr s (step .WRITE_RD_ADDR i u s) ∧
      agreeOff .wraddr s (step .WRITE_WR_ADDR i u s) ∧
      agreeOff .oplen s (step .WRITE_LEN i u s) ∧
      agreeOff .dataout s (step .READ_RD_ADDR i u s) ∧
      agreeOff .dataout s (step .READ_WR_ADDR i u s) ∧
      agreeOff .dataout s (step .READ_LEN i u s) ∧
      agreeOff .state s (step .START_SHA i u s) ∧
      (∀ ins : Instr, (step ins i u s).xram = s.xram) ∧
      ∀ ins : Instr, (updates ins).map Prod.fst = [target ins] := by
  refine ⟨?_, ?_, ?_, ?_, ?_, ?_, ?_, ?_, ?_⟩
  all_goals first
    | (intro ins; cases ins <;> rfl)
    | (simp [agreeOff, step, updates, nextBv, nextMem, lookupUpdate])

/-- C3: in every pre-state with `state != IDLE`, for every `cmdaddr` and
`cmddata`, the updates of `WRITE_RD_ADDR`, `WRITE_WR_ADDR` and `WRITE_LEN` leave
`rdaddr`, `wraddr` and `oplen` respectively equal to their pre-step values. -/
theorem busy_lock (i : Inputs) (u : Nat) (s : ShaState) (hbusy : s.state ≠ SHA_STATE_IDLE) :
    (step .WRITE_RD_ADDR i u s).rdaddr = s.rdaddr ∧
      (step .WRITE_WR_ADDR i u s).wraddr = s.wraddr ∧
      (step .WRITE_LEN i u s).oplen = s.oplen := by
  have hidle : is_status_idle s = false := by
    simp [is_status_idle, EqC, stateE, hbusy]
  simp [step, updates, nextBv, lookupUpdate, write_rd_addr_update, write_wr_addr_update,
    write_len_update, hidle, Ite, rdaddrE, wraddrE, oplenE]

/-- C3 at a concrete input: a write of `0x34` to `0xfe02`, `0xfe04`, `0xfe06` in
the busy state `OP1` changes none of the three registers. -/
theorem busy_lock_witness :
    busyState.state ≠ SHA_STATE_IDLE ∧
      (step .WRITE_RD_ADDR ⟨2, 0xfe02, 0x34⟩ 0 busyState).rdaddr = busyState.rdaddr ∧
      (step .WRITE_WR_ADDR ⟨2, 0xfe02, 0x34⟩ 0 busyState).wraddr = busyState.wraddr ∧
      (step .WRITE_LEN ⟨2, 0xfe02, 0x34⟩ 0 busyState).oplen = busyState.oplen :=
  ⟨by decide, busy_lock ⟨2, 0xfe02, 0x34⟩ 0 busyState (by decide)⟩

/-! ## Slice addressing -/

/-- The cascade from branch `k` selects slice `k + j` when `idx = base + k + j`
and at most `r ≥ j` branches follow. -/
theorem slice_read_from_eq (reg idx : Bv) (base S : Nat) :
    ∀ (r k j : Nat), j ≤ r → idx.val = base + k + j →
      slice_read_from reg idx base S k r =
        Extract reg ((k + j + 1) * S - 1) ((k + j) * S)
  | 0, k, j, hj, _ => by
    have hj0 : j = 0 := Nat.le_zero.mp hj
    subst hj0
    simp [slice_read_from]
  | r + 1, k, 0, _, hidx => by
    simp [slice_read_from, Ite, EqC, hidx]
  | r + 1, k, j + 1, hj, hidx => by
    have hne : ¬ idx.val = base + k := by omega
    have ih := slice_read_from_eq reg idx base S r (k + 1) j (by omega) (by omega)
    have hk : k + 1 + j = k + (j + 1) := by omega
    simp only [slice_read_from, Ite, EqC, beq_iff_eq, hne, if_false, ih, hk]

/-- C4: for each register `R` in `rdaddr`, `wraddr`, `oplen` with base address
`B` in `0xfe02`, `0xfe04`, `0xfe06`, when `state == IDLE` and the decode of the
write instruction holds, the new value of `R` is the value of
`slice_update(R, cmdaddr, cmddata, B, 2, 8)`, a 16-bit expression: with
`cmdaddr == B` bits `[7:0]` become `cmddata` and bits `[15:8]` are unchanged,
with `cmdaddr == B+1` bits `[15:8]` become `cmddata` and bits `[7:0]` are
unchanged. -/
theorem idle_write_eq_slice_update (i : Inputs) (u : Nat) (s : ShaState)
    (hi : i.wf) (hs : s.wf) (hidle : s.state = SHA_STATE_IDLE) :
    (decode .WRITE_RD_ADDR i s = true →
      (step .WRITE_RD_ADDR i u s).rdaddr =
          (slice_update (rdaddrE s) (cmdaddrE i) (cmddataE i) SHA_RD_ADDR 2 8).val ∧
        (slice_update (rdaddrE s) (cmdaddrE i) (cmddataE i) SHA_RD_ADDR 2 8).width = 16 ∧
        (i.cmdaddr = SHA_RD_ADDR →
          (step .WRITE_RD_ADDR i u s).rdaddr % 2 ^ 8 = i.cmddata ∧
            (step .WRITE_RD_ADDR i u s).rdaddr / 2 ^ 8 = s.rdaddr / 2 ^ 8) ∧
        (i.cmdaddr = SHA_RD_ADDR + 1 →
          (step .WRITE_RD_ADDR i u s).rdaddr / 2 ^ 8 = i.cmddata ∧
            (step .WRITE_RD_ADDR i u s).rdaddr % 2 ^ 8 = s.rdaddr % 2 ^ 8)) ∧
    (decode .WRITE_WR_ADDR i s = true →
      (step .WRITE_WR_ADDR i u s).wraddr =
          (slice_update (wraddrE s) (cmdaddrE i) (cmddataE i) SHA_WR_ADDR 2 8).val ∧
        (slice_update (wraddrE s) (cmdaddrE i) (cmddataE i) SHA_WR_ADDR 2 8).width = 16 ∧
        (i.cmdaddr = SHA_WR_ADDR →
          (step .WRITE_WR_ADDR i u s).wraddr % 2 ^ 8 = i.cmddata ∧
            (step .WRITE_WR_ADDR i u s).wraddr / 2 ^ 8 = s.wraddr / 2 ^ 8) ∧
        (i.cmdaddr = SHA_WR_ADDR + 1 →
          (step .WRITE_WR_ADDR i u s).wraddr / 2 ^ 8 = i.cmddata ∧
            (step .WRITE_WR_ADDR i u s).wraddr % 2 ^ 8 = s.wraddr % 2 ^ 8)) ∧
    (decode .WRITE_LEN i s = true →
      (step .WRITE_LEN i u s).oplen =
          (slice_update (oplenE s) (cmdaddrE i) (cmddataE i) SHA_LEN 2 8).val ∧
        (slice_update (oplenE s) (cmdaddrE i) (cmddataE i) SHA_LEN 2 8).width = 16 ∧
        (i.cmdaddr = SHA_LEN →
          (step .WRITE_LEN i u s).oplen % 2 ^ 8 = i.cmddata ∧
            (step .WRITE_LEN i u s).oplen / 2 ^ 8 = s.oplen / 2 ^ 8) ∧
        (i.cmdaddr = SHA_LEN + 1 →
          (step .WRITE_LEN i u s).oplen / 2 ^ 8 = i.cmddata ∧
            (step .WRITE_LEN i u s).oplen % 2 ^ 8 = s.oplen % 2 ^ 8)) := by
  obtain ⟨_, _, hd⟩ := hi
  obtain ⟨_, _, hr, hw, hl, _⟩ := hs
  have hidle2 : is_status_idle s = true := by
    simp [is_status_idle, EqC, stateE, hidle]
  have e1 : (step .WRITE_RD_ADDR i u s).rdaddr = (write_rd_addr_update i s).val := by
    simp [step, updates, nextBv, lookupUpdate]
  have e2 : (step .WRITE_WR_ADDR i u s).wraddr = (write_wr_addr_update i s).val := by
    simp [step, updates, nextBv, lookupUpdate]
  have e3 : (step .WRITE_LEN i u s).oplen = (write_len_update i s).val := by
    simp [step, updates, nextBv, lookupUpdate]
  rw [e1, e2, e3]
  refine ⟨?_, ?_, ?_⟩
  · intro _
    refine ⟨?_, ?_, ?_, ?_⟩
    · simp [write_rd_addr_update, slice_update, hidle2, Ite]
    · simp only [slice_update, Ite, Concat, Extract, cmddataE]
      split_ifs <;> rfl
    · intro h
      simp [write_rd_addr_update, hidle2, Ite, EqC, Concat, Extract, cmdaddrE, cmddataE,
        rdaddrE, h, SHA_RD_ADDR]
      omega
    · intro h
      simp [write_rd_addr_update, hidle2, Ite, EqC, Concat, Extract, cmdaddrE, cmddataE,
        rdaddrE, h, SHA_RD_ADDR]
      omega
  · intro _
    refine ⟨?_, ?_, ?_, ?_⟩
    · simp [write_wr_addr_update, slice_update, hidle2, Ite]
    · simp only [slice_update, Ite, Concat, Extract, cmddataE]
      split_ifs <;> rfl
    · intro h
      simp [write_wr_addr_update, hidle2, Ite, EqC, Concat, Extract, cmdaddrE, cmddataE,
        wraddrE, h, SHA_WR_ADDR]
      omega
    · intro h
      simp [write_wr_addr_update, hidle2, Ite, EqC, Concat, Extract, cmdaddrE, cmddataE,
        wraddrE, h, SHA_WR_ADDR]
      omega
  · intro _
    refine ⟨?_, ?_, ?_, ?_⟩
    · simp [write_len_update, slice_update, hidle2, Ite]
    · simp only [slice_update, Ite, Concat, Extract, cmddataE]
      split_ifs <;> rfl
    · intro h
      simp [write_len_update, hidle2, Ite, EqC, Concat, Extract, cmdaddrE, cmddataE,
        oplenE, h, SHA_LEN]
      omega
    · intro h
      simp [write_len_update, hidle2, Ite, EqC, Concat, Extract, cmdaddrE, cmddataE,
        oplenE, h, SHA_LEN]
      omega

/-- C4 at the input of the scenario: with `cmdaddr = 0xfe02` and
`cmddata = 0x34` in an idle state the low byte of `rdaddr` becomes `0x34` and the
high byte is unchanged. -/
theorem idle_write_eq_slice_update_witness :
    Inputs.wf ⟨2, 0xfe02, 0x34⟩ ∧ sampleState.wf ∧ sampleState.state = SHA_STATE_IDLE ∧
      decode .WRITE_RD_ADDR ⟨2, 0xfe02, 0x34⟩ sampleState = true ∧
      (step .WRITE_RD_ADDR ⟨2, 0xfe02, 0x34⟩ 0 sampleState).rdaddr % 2 ^ 8 = 0x34 ∧
      (step .WRITE_RD_ADDR ⟨2, 0xfe02, 0x34⟩ 0 sampleState).rdaddr / 2 ^ 8 =
        sampleState.rdaddr / 2 ^ 8 :=
  ⟨by simp [Inputs.wf], by simp [ShaState.wf, sampleState], rfl, by decide,
    ((idle_write_eq_slice_update ⟨2, 0xfe02, 0x34⟩ 0 sampleState (by simp [Inputs.wf])
      (by simp [ShaState.wf, sampleState]) rfl).1 (by decide)).2.2.1 rfl⟩

/-- For `idx` in `[base, base + N)` the cascade of `slice_read` selects slice
`idx - base`; for `S > 0` that is an `S`-bit value. -/
theorem slice_read_in_range (reg idx : Bv) (base N S : Nat)
    (hlo : base ≤ idx.val) (hhi : idx.val < base + N) :
    slice_read reg idx base N S =
        Extract reg ((idx.val - base + 1) * S - 1) ((idx.val - base) * S) ∧
      (0 < S → (slice_read reg idx base N S).width = S ∧
        (slice_read reg idx base N S).val = reg.val / 2 ^ ((idx.val - base) * S) % 2 ^ S) := by
  have h := slice_read_from_eq reg idx base S (N - 1) 0 (idx.val - base) (by omega) (by omega)
  simp only [Nat.zero_add] at h
  have hw : ∀ k : Nat, 0 < S → (k + 1) * S - 1 - k * S + 1 = S := by
    intro k hS
    have : (k + 1) * S = k * S + S := by ring
    omega
  refine ⟨h, fun hS => ?_⟩
  rw [slice_read, h]
  simp only [Extract, hw _ hS, and_self]

/-- C5: for every register of width `W`, slice width `S` and slice count `N`
with `N * S = W`, every base address and every `idx` in `[base, base + N)`,
`slice_read(reg, idx, base, N, S)` is exactly bits
`[(idx-base+1)*S-1 : (idx-base)*S]` of `reg`: for `S > 0` an `S`-bit value equal
to `reg / 2^((idx-base)*S) mod 2^S`. -/
theorem slice_read_correct (reg idx : Bv) (base N S W : Nat) (_hW : N * S = W)
    (_hreg : reg.width = W) (hlo : base ≤ idx.val) (hhi : idx.val < base + N) :
    slice_read reg idx base N S =
        Extract reg ((idx.val - base + 1) * S - 1) ((idx.val - base) * S) ∧
      (0 < S → (slice_read reg idx base N S).width = S ∧
        (slice_read reg idx base N S).val = reg.val / 2 ^ ((idx.val - base) * S) % 2 ^ S) :=
  slice_read_in_range reg idx base N S hlo hhi

/-- C5 at a concrete input: reading slice `0xfe03 - 0xfe02 = 1` of the 16-bit
value `0xabcd` split in two bytes gives the 8-bit value `0xab`. -/
theorem slice_read_correct_witness :
    0xfe02 ≤ (⟨16, 0xfe03⟩ : Bv).val ∧ (⟨16, 0xfe03⟩ : Bv).val < 0xfe02 + 2 ∧
      slice_read ⟨16, 0xabcd⟩ ⟨16, 0xfe03⟩ 0xfe02 2 8 = ⟨8, 0xab⟩ :=
  ⟨by decide, by decide,
    (slice_read_correct ⟨16, 0xabcd⟩ ⟨16, 0xfe03⟩ 0xfe02 2 8 16 rfl rfl (by decide)
      (by decide)).1.trans (by decide)⟩

/-! ## Register reads -/

/-- C6: for each register `R` in `rdaddr`, `wraddr`, `oplen` with base `B`,
whenever the decode of the matching read instruction holds, the new `dataout` is
the byte of `R` selected by `cmdaddr - B`: bits `[7:0]` when `cmdaddr == B` and
bits `[15:8]` when `cmdaddr == B+1`, for every value of `state`. -/
theorem register_read (i : Inputs) (u : Nat) (s : ShaState) :
    (decode .READ_RD_ADDR i s = true →
      (step .READ_RD_ADDR i u s).dataout =
          s.rdaddr / 2 ^ (8 * (i.cmdaddr - SHA_RD_ADDR)) % 2 ^ 8 ∧
        (i.cmdaddr = SHA_RD_ADDR →
          (step .READ_RD_ADDR i u s).dataout = (Extract (rdaddrE s) 7 0).val) ∧
        (i.cmdaddr = SHA_RD_ADDR + 1 →
          (step .READ_RD_ADDR i u s).dataout = (Extract (rdaddrE s) 15 8).val)) ∧
    (decode .READ_WR_ADDR i s = true →
      (step .READ_WR_ADDR i u s).dataout =
          s.wraddr / 2 ^ (8 * (i.cmdaddr - SHA_WR_ADDR)) % 2 ^ 8 ∧
        (i.cmdaddr = SHA_WR_ADDR →
          (step .READ_WR_ADDR i u s).dataout = (Extract (wraddrE s) 7 0).val) ∧
        (i.cmdaddr = SHA_WR_ADDR + 1 →
          (step .READ_WR_ADDR i u s).dataout = (Extract (wraddrE s) 15 8).val)) ∧
    (decode .READ_LEN i s = true →
      (step .READ_LEN i u s).dataout =
          s.oplen / 2 ^ (8 * (i.cmdaddr - SHA_LEN)) % 2 ^ 8 ∧
        (i.cmdaddr = SHA_LEN →
          (step .READ_LEN i u s).dataout = (Extract (oplenE s) 7 0).val) ∧
        (i.cmdaddr = SHA_LEN + 1 →
          (step .READ_LEN i u s).dataout = (Extract (oplenE s) 15 8).val)) := by
  have e1 : (step .READ_RD_ADDR i u s).dataout =
      (slice_read (rdaddrE s) (cmdaddrE i) SHA_RD_ADDR 2 8).val := by
    simp [step, updates, nextBv, lookupUpdate]
  have e2 : (step .READ_WR_ADDR i u s).dataout =
      (slice_read (wraddrE s) (cmdaddrE i) SHA_WR_ADDR 2 8).val := by
    simp [step, updates, nextBv, lookupUpdate]
  have e3 : (step .READ_LEN i u s).dataout =
      (slice_read (oplenE s) (cmdaddrE i) SHA_LEN 2 8).val := by
    simp [step, updates, nextBv, lookupUpdate]
  rw [e1, e2, e3]
  refine ⟨?_, ?_, ?_⟩
  · intro hd
    simp only [decode, Bool.and_eq_true, decide_eq_true_eq] at hd
    have h := (slice_read_in_range (rdaddrE s) (cmdaddrE i) SHA_RD_ADDR 2 8 hd.1.2 hd.2).2 (by decide)
    refine ⟨by rw [h.2]; simp [rdaddrE, cmdaddrE, Nat.mul_comm], ?_, ?_⟩
    · intro ha
      rw [h.2]
      simp [rdaddrE, cmdaddrE, ha, Extract]
    · intro ha
      rw [h.2]
      simp [rdaddrE, cmdaddrE, ha, Extract]
  · intro hd
    simp only [decode, Bool.and_eq_true, decide_eq_true_eq] at hd
    have h := (slice_read_in_range (wraddrE s) (cmdaddrE i) SHA_WR_ADDR 2 8 hd.1.2 hd.2).2 (by decide)
    refine ⟨by rw [h.2]; simp [wraddrE, cmdaddrE, Nat.mul_comm], ?_, ?_⟩
    · intro ha
      rw [h.2]
      simp [wraddrE, cmdaddrE, ha, Extract]
    · intro ha
      rw [h.2]
      simp [wraddrE, cmdaddrE, ha, Extract]
  · intro hd
    simp only [decode, Bool.and_eq_true, decide_eq_true_eq] at hd
    have h := (slice_read_in_range (oplenE s) (cmdaddrE i) SHA_LEN 2 8 hd.1.2 hd.2).2 (by decide)
    refine ⟨by rw [h.2]; simp [oplenE, cmdaddrE, Nat.mul_comm], ?_, ?_⟩
    · intro ha
      rw [h.2]
      simp [oplenE, cmdaddrE, ha, Extract]
    · intro ha
      rw [h.2]
      simp [oplenE, cmdaddrE, ha, Extract]

/-- C6 at concrete inputs: in a busy state, reading `0xfe02` returns the low
byte `0xcd` of `rdaddr = 0xabcd` and reading `0xfe03` returns the high byte
`0xab`. -/
theorem register_read_witness :
    decode .READ_RD_ADDR ⟨1, 0xfe02, 0⟩ busyState = true ∧
      (step .READ_RD_ADDR ⟨1, 0xfe02, 0⟩ 0 busyState).dataout = 0xcd ∧
      decode .READ_RD_ADDR ⟨1, 0xfe03, 0⟩ busyState = true ∧
      (step .READ_RD_ADDR ⟨1, 0xfe03, 0⟩ 0 busyState).dataout = 0xab :=
  ⟨by decide,
    (((register_read ⟨1, 0xfe02, 0⟩ 0 busyState).1 (by decide)).2.1 rfl).trans (by decide),
    by decide,
    (((register_read ⟨1, 0xfe03, 0⟩ 0 busyState).1 (by decide)).2.2 rfl).trans (by decide)⟩

/-! ## Slice update round-trip -/

/-- Bits above slice `j` do not show in slice `j`. -/
theorem div_mod_drop_high (t r j d S : Nat) :
    (t * 2 ^ (j * S + d * S + S) + r) / 2 ^ (j * S) % 2 ^ S = r / 2 ^ (j * S) % 2 ^ S := by
  have hpos : 0 < 2 ^ (j * S) := by positivity
  have e : t * 2 ^ (j * S + d * S + S) + r = r + (t * 2 ^ (d * S) * 2 ^ S) * 2 ^ (j * S) := by
    rw [pow_add, pow_add]; ring
  rw [e, Nat.add_mul_div_right _ _ hpos, Nat.add_mul_mod_self_right]

/-- Dividing a concatenation by the weight of its low part gives the high part. -/
theorem div_top (t r m : Nat) (hr : r < 2 ^ m) : (t * 2 ^ m + r) / 2 ^ m = t := by
  have hpos : 0 < 2 ^ m := by positivity
  rw [Nat.add_comm, Nat.add_mul_div_right _ _ hpos, Nat.div_eq_of_lt hr, Nat.zero_add]

/-- A concatenation of an `S`-bit and an `m`-bit value is an `S + m`-bit value. -/
theorem concat_lt (t r S m : Nat) (ht : t < 2 ^ S) (hr : r < 2 ^ m) :
    t * 2 ^ m + r < 2 ^ (S + m) := by
  have h1 : (t + 1) * 2 ^ m ≤ 2 ^ S * 2 ^ m := Nat.mul_le_mul_right _ ht
  rw [pow_add]
  have : (t + 1) * 2 ^ m = t * 2 ^ m + 2 ^ m := by ring
  omega

/-- Slice `k` of width `S > 0` spans `S` bits. -/
theorem slice_width_eq (k S : Nat) (hS : 0 < S) : (k + 1) * S - 1 - k * S + 1 = S := by
  have : (k + 1) * S = k * S + S := by ring
  omega

/-- The slice that `slice_update` puts at position `k`. -/
theorem slice_choice_props (reg idx v : Bv) (base k S : Nat) (hS : 0 < S)
    (hvw : v.width = S) (hvv : v.val < 2 ^ S) :
    (Ite (EqC idx (base + k)) v (Extract reg ((k + 1) * S - 1) (k * S))).width = S ∧
      (Ite (EqC idx (base + k)) v (Extract reg ((k + 1) * S - 1) (k * S))).val < 2 ^ S ∧
      (Ite (EqC idx (base + k)) v (Extract reg ((k + 1) * S - 1) (k * S))).val =
        if idx.val = base + k then v.val else reg.val / 2 ^ (k * S) % 2 ^ S := by
  have hw := slice_width_eq k S hS
  unfold Ite EqC
  by_cases h : idx.val = base + k
  · simp [h, hvw, hvv]
  · simp only [beq_iff_eq, h, if_false, Extract, hw, true_and]
    exact ⟨Nat.mod_lt _ (Nat.two_pow_pos S), trivial⟩

/-- Width and range of `slice_update` over `n` slices. -/
theorem slice_update_width_lt (reg idx v : Bv) (base S : Nat) (hS : 0 < S)
    (hvw : v.width = S) (hvv : v.val < 2 ^ S) :
    ∀ n : Nat, (slice_update reg idx v base n S).width = n * S ∧
      (slice_update reg idx v base n S).val < 2 ^ (n * S)
  | 0 => by simp [slice_update]
  | 1 => by
    have h := slice_choice_props reg idx v base 0 S hS hvw hvv
    simp only [Nat.zero_add, Nat.one_mul, Nat.zero_mul, Nat.add_zero] at h
    simp only [slice_update, Nat.one_mul]
    exact ⟨h.1, h.2.1⟩
  | k + 2 => by
    have h := slice_choice_props reg idx v base (k + 1) S hS hvw hvv
    have ih := slice_update_width_lt reg idx v base S hS hvw hvv (k + 1)
    simp only [slice_update, Concat]
    rw [show k + 1 + 1 = k + 2 from rfl] at h
    refine ⟨?_, ?_⟩
    · rw [h.1, ih.1]; ring
    · rw [ih.1]
      have hlt := concat_lt _ _ S ((k + 1) * S) h.2.1 ih.2
      have he : 2 ^ ((k + 2) * S) = 2 ^ (S + (k + 1) * S) := by
        congr 1; ring
      rw [he]
      exact hlt

/-- Slice `j` of the result of `slice_update`: the input slice at the selected
position, the old bits elsewhere. -/
theorem slice_update_slice (reg idx v : Bv) (base S : Nat) (hS : 0 < S)
    (hvw : v.width = S) (hvv : v.val < 2 ^ S) :
    ∀ n j : Nat, j < n →
      (slice_update reg idx v base n S).val / 2 ^ (j * S) % 2 ^ S =
        if idx.val = base + j then v.val else reg.val / 2 ^ (j * S) % 2 ^ S
  | 0, j, hj => absurd hj (Nat.not_lt_zero j)
  | 1, j, hj => by
    have hj0 : j = 0 := by omega
    subst hj0
    have h := slice_choice_props reg idx v base 0 S hS hvw hvv
    simp only [Nat.zero_add, Nat.one_mul, Nat.zero_mul, Nat.add_zero] at h
    simp only [slice_update, Nat.zero_mul, pow_zero, Nat.div_one, Nat.add_zero]
    rw [Nat.mod_eq_of_lt h.2.1, h.2.2]
    simp
  | k + 2, j, hj => by
    have h := slice_choice_props reg idx v base (k + 1) S hS hvw hvv
    have hrest := slice_update_width_lt reg idx v base S hS hvw hvv (k + 1)
    rw [show k + 1 + 1 = k + 2 from rfl] at h
    simp only [slice_update, Concat, hrest.1]
    by_cases hjk : j = k + 1
    · subst hjk
      rw [div_top _ _ _ hrest.2, Nat.mod_eq_of_lt h.2.1, h.2.2]
    · have hjlt : j < k + 1 := by omega
      have ih := slice_update_slice reg idx v base S hS hvw hvv (k + 1) j hjlt
      have he : (k + 1) * S = j * S + (k - j) * S + S := by
        have : k + 1 = j + (k - j) + 1 := by omega
        rw [this]; ring
      rw [he, div_mod_drop_high, ih]

/-- C7: for every register `reg` (in particular of width `N * S`), every slice
value `v` of width `S > 0` and every `idx` in `[base, base + N)`, reading slice
`idx` of `slice_update(reg, idx, v, base, N, S)` gives `v`, and reading any other
in-range `idx2 != idx` of the updated register gives what reading `idx2` of the
original register gives. -/
theorem slice_update_round_trip (reg idx v : Bv) (base N S : Nat) (hS : 0 < S)
    (hvw : v.width = S) (hvv : v.val < 2 ^ S)
    (hlo : base ≤ idx.val) (hhi : idx.val < base + N) :
    slice_read (slice_update reg idx v base N S) idx base N S = v ∧
      ∀ idx2 : Bv, base ≤ idx2.val → idx2.val < base + N → idx2.val ≠ idx.val →
        slice_read (slice_update reg idx v base N S) idx2 base N S =
          slice_read reg idx2 base N S := by
  have hex : ∀ (e : Bv) (j : Nat),
      Extract e ((j + 1) * S - 1) (j * S) = ⟨S, e.val / 2 ^ (j * S) % 2 ^ S⟩ := by
    intro e j
    simp only [Extract, slice_width_eq j S hS]
  have hrd : ∀ (e i : Bv), base ≤ i.val → i.val < base + N →
      slice_read e i base N S = ⟨S, e.val / 2 ^ ((i.val - base) * S) % 2 ^ S⟩ := by
    intro e i h1 h2
    have h := slice_read_from_eq e i base S (N - 1) 0 (i.val - base) (by omega) (by omega)
    simp only [Nat.zero_add] at h
    rw [slice_read, h, hex]
  refine ⟨?_, ?_⟩
  · rw [hrd _ idx hlo hhi,
      slice_update_slice reg idx v base S hS hvw hvv N (idx.val - base) (by omega)]
    have hidx : idx.val = base + (idx.val - base) := by omega
    rw [if_pos hidx]
    cases v
    simp only at hvw
    simp [hvw]
  · intro idx2 h1 h2 hne
    rw [hrd _ idx2 h1 h2, hrd _ idx2 h1 h2,
      slice_update_slice reg idx v base S hS hvw hvv N (idx2.val - base) (by omega)]
    have hidx : ¬ idx.val = base + (idx2.val - base) := by omega
    rw [if_neg hidx]

/-- C7 at a concrete input: after updating slice `0xfe02` of `0xabcd` with
`0x34`, reading `0xfe02` gives `0x34` and reading `0xfe03` still gives `0xab`. -/
theorem slice_update_round_trip_witness :
    slice_read (slice_update ⟨16, 0xabcd⟩ ⟨16, 0xfe02⟩ ⟨8, 0x34⟩ 0xfe02 2 8)
        ⟨16, 0xfe02⟩ 0xfe02 2 8 = ⟨8, 0x34⟩ ∧
      slice_read (slice_update ⟨16, 0xabcd⟩ ⟨16, 0xfe02⟩ ⟨8, 0x34⟩ 0xfe02 2 8)
        ⟨16, 0xfe03⟩ 0xfe02 2 8 = slice_read ⟨16, 0xabcd⟩ ⟨16, 0xfe03⟩ 0xfe02 2 8 :=
  ⟨(slice_update_round_trip ⟨16, 0xabcd⟩ ⟨16, 0xfe02⟩ ⟨8, 0x34⟩ 0xfe02 2 8 (by decide) rfl
      (by decide) (by decide) (by decide)).1,
    (slice_update_round_trip ⟨16, 0xabcd⟩ ⟨16, 0xfe02⟩ ⟨8, 0x34⟩ 0xfe02 2 8 (by decide) rfl
      (by decide) (by decide) (by decide)).2 ⟨16, 0xfe03⟩ (by decide) (by decide) (by decide)⟩

/-! ## Scenarios -/

/-- C8: from any state with `state == IDLE`, for each register `R` in `rdaddr`,
`wraddr`, `oplen` with base `B`, every address `a` in `[B, B+2)` and every byte
`v`: the write instruction decodes on `cmd = WRITE, cmdaddr = a, cmddata = v`,
and executing it and then the matching read instruction with `cmdaddr = a`
yields `dataout == v`; reading the other in-range address instead (where the read
decodes as well) yields the original byte of `R` at that address. -/
theorem write_then_read (s : ShaState) (v d u1 u2 : Nat)
    (hidle : s.state = SHA_STATE_IDLE) (hv : v < 2 ^ 8) :
    (∀ a : Nat, SHA_RD_ADDR ≤ a → a < SHA_RD_ADDR + 2 →
      decode .WRITE_RD_ADDR ⟨CMD_WRITE, a, v⟩ s = true ∧
        decode .READ_RD_ADDR ⟨CMD_READ, a, d⟩ (step .WRITE_RD_ADDR ⟨CMD_WRITE, a, v⟩ u1 s) = true ∧
        (step .READ_RD_ADDR ⟨CMD_READ, a, d⟩ u2 (step .WRITE_RD_ADDR ⟨CMD_WRITE, a, v⟩ u1 s)).dataout = v ∧
        ∀ a2 : Nat, SHA_RD_ADDR ≤ a2 → a2 < SHA_RD_ADDR + 2 → a2 ≠ a →
          decode .READ_RD_ADDR ⟨CMD_READ, a2, d⟩ (step .WRITE_RD_ADDR ⟨CMD_WRITE, a, v⟩ u1 s) = true ∧
            (step .READ_RD_ADDR ⟨CMD_READ, a2, d⟩ u2 (step .WRITE_RD_ADDR ⟨CMD_WRITE, a, v⟩ u1 s)).dataout =
              s.rdaddr / 2 ^ (8 * (a2 - SHA_RD_ADDR)) % 2 ^ 8) ∧
    (∀ a : Nat, SHA_WR_ADDR ≤ a → a < SHA_WR_ADDR + 2 →
      decode .WRITE_WR_ADDR ⟨CMD_WRITE, a, v⟩ s = true ∧
        decode .READ_WR_ADDR ⟨CMD_READ, a, d⟩ (step .WRITE_WR_ADDR ⟨CMD_WRITE, a, v⟩ u1 s) = true ∧
        (step .READ_WR_ADDR ⟨CMD_READ, a, d⟩ u2 (step .WRITE_WR_ADDR ⟨CMD_WRITE, a, v⟩ u1 s)).dataout = v ∧
        ∀ a2 : Nat, SHA_WR_ADDR ≤ a2 → a2 < SHA_WR_ADDR + 2 → a2 ≠ a →
          decode .READ_WR_ADDR ⟨CMD_READ, a2, d⟩ (step .WRITE_WR_ADDR ⟨CMD_WRITE, a, v⟩ u1 s) = true ∧
            (step .READ_WR_ADDR ⟨CMD_READ, a2, d⟩ u2 (step .WRITE_WR_ADDR ⟨CMD_WRITE, a, v⟩ u1 s)).dataout =
              s.wraddr / 2 ^ (8 * (a2 - SHA_WR_ADDR)) % 2 ^ 8) ∧
    (∀ a : Nat, SHA_LEN ≤ a → a < SHA_LEN + 2 →
      decode .WRITE_LEN ⟨CMD_WRITE, a, v⟩ s = true ∧
        decode .READ_LEN ⟨CMD_READ, a, d⟩ (step .WRITE_LEN ⟨CMD_WRITE, a, v⟩ u1 s) = true ∧
        (step .READ_LEN ⟨CMD_READ, a, d⟩ u2 (step .WRITE_LEN ⟨CMD_WRITE, a, v⟩ u1 s)).dataout = v ∧
        ∀ a2 : Nat, SHA_LEN ≤ a2 → a2 < SHA_LEN + 2 → a2 ≠ a →
          decode .READ_LEN ⟨CMD_READ, a2, d⟩ (step .WRITE_LEN ⟨CMD_WRITE, a, v⟩ u1 s) = true ∧
            (step .READ_LEN ⟨CMD_READ, a2, d⟩ u2 (step .WRITE_LEN ⟨CMD_WRITE, a, v⟩ u1 s)).dataout =
              s.oplen / 2 ^ (8 * (a2 - SHA_LEN)) % 2 ^ 8) := by
  have hidle2 : is_status_idle s = true := by
    simp [is_status_idle, EqC, stateE, hidle]
  refine ⟨?_, ?_, ?_⟩
  · intro a h1 h2
    have hw : (step .WRITE_RD_ADDR ⟨CMD_WRITE, a, v⟩ u1 s).rdaddr =
        (if a = SHA_RD_ADDR + 1 then v else s.rdaddr / 2 ^ 8 % 2 ^ 8) * 2 ^ 8 +
          (if a = SHA_RD_ADDR then v else s.rdaddr % 2 ^ 8) := by
      simp only [step, updates, nextBv, lookupUpdate, if_true, write_rd_addr_update, hidle2, Ite,
        EqC, Concat, Extract, cmdaddrE, cmddataE, rdaddrE, beq_iff_eq]
      split_ifs <;> simp
    have hr : ∀ (a2 : Nat) (t : ShaState), SHA_RD_ADDR ≤ a2 → a2 < SHA_RD_ADDR + 2 →
        (step .READ_RD_ADDR ⟨CMD_READ, a2, d⟩ u2 t).dataout =
          t.rdaddr / 2 ^ (8 * (a2 - SHA_RD_ADDR)) % 2 ^ 8 := by
      intro a2 t h3 h4
      have e : (step .READ_RD_ADDR ⟨CMD_READ, a2, d⟩ u2 t).dataout =
          (slice_read (rdaddrE t) (cmdaddrE ⟨CMD_READ, a2, d⟩) SHA_RD_ADDR 2 8).val := by
        simp [step, updates, nextBv, lookupUpdate]
      rw [e, ((slice_read_in_range (rdaddrE t) (cmdaddrE ⟨CMD_READ, a2, d⟩) SHA_RD_ADDR 2 8 h3 h4).2
        (by decide)).2]
      simp [rdaddrE, cmdaddrE, Nat.mul_comm]
    refine ⟨by simp [decode, EqC, cmdE, h1, h2], by simp [decode, EqC, cmdE, h1, h2], ?_, ?_⟩
    · rw [hr a _ h1 h2, hw]
      have ha : a = SHA_RD_ADDR ∨ a = SHA_RD_ADDR + 1 := by omega
      rcases ha with ha | ha <;> subst ha <;> simp [SHA_RD_ADDR] <;> omega
    · intro a2 h3 h4 hne
      refine ⟨by simp [decode, EqC, cmdE, h3, h4], ?_⟩
      rw [hr a2 _ h3 h4, hw]
      have ha : (a = SHA_RD_ADDR ∧ a2 = SHA_RD_ADDR + 1) ∨ (a = SHA_RD_ADDR + 1 ∧ a2 = SHA_RD_ADDR) := by omega
      rcases ha with ⟨ha, hb⟩ | ⟨ha, hb⟩ <;> subst ha <;> subst hb <;> simp [SHA_RD_ADDR] <;> omega
  · intro a h1 h2
    have hw : (step .WRITE_WR_ADDR ⟨CMD_WRITE, a, v⟩ u1 s).wraddr =
        (if a = SHA_WR_ADDR + 1 then v else s.wraddr / 2 ^ 8 % 2 ^ 8) * 2 ^ 8 +
          (if a = SHA_WR_ADDR then v else s.wraddr % 2 ^ 8) := by
      simp only [step, updates, nextBv, lookupUpdate, if_true, write_wr_addr_update, hidle2, Ite,
        EqC, Concat, Extract, cmdaddrE, cmddataE, wraddrE, beq_iff_eq]
      split_ifs <;> simp
    have hr : ∀ (a2 : Nat) (t : ShaState), SHA_WR_ADDR ≤ a2 → a2 < SHA_WR_ADDR + 2 →
        (step .READ_WR_ADDR ⟨CMD_READ, a2, d⟩ u2 t).dataout =
          t.wraddr / 2 ^ (8 * (a2 - SHA_WR_ADDR)) % 2 ^ 8 := by
      intro a2 t h3 h4
      have e : (step .READ_WR_ADDR ⟨CMD_READ, a2, d⟩ u2 t).dataout =
          (slice_read (wraddrE t) (cmdaddrE ⟨CMD_READ, a2, d⟩) SHA_WR_ADDR 2 8).val := by
        simp [step, updates, nextBv, lookupUpdate]
      rw [e, ((slice_read_in_range (wraddrE t) (cmdaddrE ⟨CMD_READ, a2, d⟩) SHA_WR_ADDR 2 8 h3 h4).2
        (by decide)).2]
      simp [wraddrE, cmdaddrE, Nat.mul_comm]
    refine ⟨by simp [decode, EqC, cmdE, h1, h2], by simp [decode, EqC, cmdE, h1, h2], ?_, ?_⟩
    · rw [hr a _ h1 h2, hw]
      have ha : a = SHA_WR_ADDR ∨ a = SHA_WR_ADDR + 1 := by omega
      rcases ha with ha | ha <;> subst ha <;> simp [SHA_WR_ADDR] <;> omega
    · intro a2 h3 h4 hne
      refine ⟨by simp [decode, EqC, cmdE, h3, h4], ?_⟩
      rw [hr a2 _ h3 h4, hw]
      have ha : (a = SHA_WR_ADDR ∧ a2 = SHA_WR_ADDR + 1) ∨ (a = SHA_WR_ADDR + 1 ∧ a2 = SHA_WR_ADDR) := by omega
      rcases ha with ⟨ha, hb⟩ | ⟨ha, hb⟩ <;> subst ha <;> subst hb <;> simp [SHA_WR_ADDR] <;> omega
  · intro a h1 h2
    have hw : (step .WRITE_LEN ⟨CMD_WRITE, a, v⟩ u1 s).oplen =
        (if a = SHA_LEN + 1 then v else s.oplen / 2 ^ 8 % 2 ^ 8) * 2 ^ 8 +
          (if a = SHA_LEN then v else s.oplen % 2 ^ 8) := by
      simp only [step, updates, nextBv, lookupUpdate, if_true, write_len_update, hidle2, Ite,
        EqC, Concat, Extract, cmdaddrE, cmddataE, oplenE, beq_iff_eq]
      split_ifs <;> simp
    have hr : ∀ (a2 : Nat) (t : ShaState), SHA_LEN ≤ a2 → a2 < SHA_LEN + 2 →
        (step .READ_LEN ⟨CMD_READ, a2, d⟩ u2 t).dataout =
          t.oplen / 2 ^ (8 * (a2 - SHA_LEN)) % 2 ^ 8 := by
      intro a2 t h3 h4
      have e : (step .READ_LEN ⟨CMD_READ, a2, d⟩ u2 t).dataout =
          (slice_read (oplenE t) (cmdaddrE ⟨CMD_READ, a2, d⟩) SHA_LEN 2 8).val := by
        simp [step, updates, nextBv, lookupUpdate]
      rw [e, ((slice_read_in_range (oplenE t) (cmdaddrE ⟨CMD_READ, a2, d⟩) SHA_LEN 2 8 h3 h4).2
        (by decide)).2]
      simp [oplenE, cmdaddrE, Nat.mul_comm]
    refine ⟨by simp [decode, EqC, cmdE, h1, h2], by simp [decode, EqC, cmdE, h1, h2], ?_, ?_⟩
    · rw [hr a _ h1 h2, hw]
      have ha : a = SHA_LEN ∨ a = SHA_LEN + 1 := by omega
      rcases ha with ha | ha <;> subst ha <;> simp [SHA_LEN] <;> omega
    · intro a2 h3 h4 hne
      refine ⟨by simp [decode, EqC, cmdE, h3, h4], ?_⟩
      rw [hr a2 _ h3 h4, hw]
      have ha : (a = SHA_LEN ∧ a2 = SHA_LEN + 1) ∨ (a = SHA_LEN + 1 ∧ a2 = SHA_LEN) := by omega
      rcases ha with ⟨ha, hb⟩ | ⟨ha, hb⟩ <;> subst ha <;> subst hb <;> simp [SHA_LEN] <;> omega

/-- C8 at the input of the scenario: in an idle state, writing `0x34` to
`0xfe02` and then reading `0xfe02` gives `dataout = 0x34`. -/
theorem write_then_read_witness :
    sampleState.state = SHA_STATE_IDLE ∧ 0x34 < 2 ^ 8 ∧
      (step .READ_RD_ADDR ⟨CMD_READ, 0xfe02, 0⟩ 0
        (step .WRITE_RD_ADDR ⟨CMD_WRITE, 0xfe02, 0x34⟩ 0 sampleState)).dataout = 0x34 :=
  ⟨rfl, by decide,
    ((write_then_read sampleState 0x34 0 0 0 rfl (by decide)).1 0xfe02 (by decide)
      (by decide)).2.2.1⟩

/-- C9: for every pre-state with `state == IDLE` and the inputs `cmd = WRITE`,
`cmdaddr = 0xfe00`, `cmddata = 1`, the decode of `START_SHA` holds and the next
value of `state` is 1 (`READ_DATA`), whatever the other state variables and the
interpretation of the unknown. -/
theorem start_while_idle (s : ShaState) (u : Nat) (hidle : s.state = SHA_STATE_IDLE) :
    decode .START_SHA ⟨CMD_WRITE, 0xfe00, 1⟩ s = true ∧
      (step .START_SHA ⟨CMD_WRITE, 0xfe00, 1⟩ u s).state = SHA_STATE_READ_DATA := by
  have hidle2 : is_status_idle s = true := by
    simp [is_status_idle, EqC, stateE, hidle]
  refine ⟨by simp [decode, EqC, cmdE, cmdaddrE, cmddataE, CMD_WRITE, SHA_START], ?_⟩
  simp [step, updates, nextBv, lookupUpdate, start_sha_update, hidle2, Ite, BvConst,
    SHA_STATE_READ_DATA]

/-- C9 at a concrete pre-state: starting in the idle sample state gives
`state = 1`. -/
theorem start_while_idle_witness :
    sampleState.state = SHA_STATE_IDLE ∧
      decode .START_SHA ⟨CMD_WRITE, 0xfe00, 1⟩ sampleState = true ∧
      (step .START_SHA ⟨CMD_WRITE, 0xfe00, 1⟩ 7 sampleState).state = 1 :=
  ⟨rfl, start_while_idle sampleState 7 rfl⟩

/-- C10, the code at the failing input: in the busy state `state = 2` with
`cmd = WRITE`, `cmdaddr = 0xfe00`, `cmddata = 1`, `START_SHA` decodes and its
update `unknown(2)()` is a 2-bit expression: under every interpretation of the
unknown the next `state` is below 4, so no interpretation gives 4
(`WRITE_DATA`), while each of 0, 1, 2, 3 is given by some interpretation. -/
theorem start_while_busy_two_bit :
    decode .START_SHA ⟨CMD_WRITE, 0xfe00, 1⟩ busyState = true ∧
      (∀ u : Nat, (start_sha_update u busyState).width = 2) ∧
      (∀ u : Nat, (step .START_SHA ⟨CMD_WRITE, 0xfe00, 1⟩ u busyState).state < 4) ∧
      (¬ ∃ u : Nat, (step .START_SHA ⟨CMD_WRITE, 0xfe00, 1⟩ u busyState).state = 4) ∧
      (∀ v : Nat, v < 4 →
        ∃ u : Nat, (step .START_SHA ⟨CMD_WRITE, 0xfe00, 1⟩ u busyState).state = v) := by
  have hbusy : is_status_idle busyState = false := by decide
  have hst : ∀ u : Nat,
      (step .START_SHA ⟨CMD_WRITE, 0xfe00, 1⟩ u busyState).state = u % 4 := by
    intro u
    simp [step, updates, nextBv, lookupUpdate, start_sha_update, hbusy, Ite, unknown]
  refine ⟨by decide, ?_, ?_, ?_, ?_⟩
  · intro u
    simp [start_sha_update, hbusy, Ite, unknown]
  · intro u
    rw [hst]
    omega
  · rintro ⟨u, hu⟩
    rw [hst] at hu
    omega
  · intro v hv
    exact ⟨v, by rw [hst]; omega⟩

/-! ## Valid predicate and register map -/

/-- What each decode predicate says about the inputs. -/
theorem decode_iff (i : Inputs) (s : ShaState) :
    (decode .WRITE_RD_ADDR i s = true ↔
      i.cmd = CMD_WRITE ∧ (i.cmdaddr = 0xfe02 ∨ i.cmdaddr = 0xfe03)) ∧
    (decode .WRITE_WR_ADDR i s = true ↔
      i.cmd = CMD_WRITE ∧ (i.cmdaddr = 0xfe04 ∨ i.cmdaddr = 0xfe05)) ∧
    (decode .WRITE_LEN i s = true ↔
      i.cmd = CMD_WRITE ∧ (i.cmdaddr = 0xfe06 ∨ i.cmdaddr = 0xfe07)) ∧
    (decode .READ_RD_ADDR i s = true ↔
      i.cmd = CMD_READ ∧ (i.cmdaddr = 0xfe02 ∨ i.cmdaddr = 0xfe03)) ∧
    (decode .READ_WR_ADDR i s = true ↔
      i.cmd = CMD_READ ∧ (i.cmdaddr = 0xfe04 ∨ i.cmdaddr = 0xfe05)) ∧
    (decode .READ_LEN i s = true ↔
      i.cmd = CMD_READ ∧ (i.cmdaddr = 0xfe06 ∨ i.cmdaddr = 0xfe07)) ∧
    (decode .START_SHA i s = true ↔
      i.cmd = CMD_WRITE ∧ i.cmdaddr = 0xfe00 ∧ i.cmddata = 1) := by
  refine ⟨?_, ?_, ?_, ?_, ?_, ?_, ?_⟩ <;>
    simp only [decode, EqC, cmdE, cmdaddrE, cmddataE, SHA_RD_ADDR, SHA_WR_ADDR, SHA_LEN,
      SHA_START, Bool.and_eq_true, beq_iff_eq, decide_eq_true_eq] <;>
    constructor <;> intro h <;> omega

/-- The valid predicate holds exactly when `cmd` is `READ` or `WRITE`. -/
theorem valid_iff (i : Inputs) (s : ShaState) :
    valid i s = true ↔ i.cmd = CMD_READ ∨ i.cmd = CMD_WRITE := by
  simp [valid, EqC, cmdE, CMD_READ, CMD_WRITE]

/-- Every decode predicate fixes `cmd` to `READ` or `WRITE` and `cmdaddr` to one
of the mapped addresses. -/
theorem decode_cmd_addr (ins : Instr) (i : Inputs) (s : ShaState)
    (h : decode ins i s = true) :
    (i.cmd = CMD_READ ∨ i.cmd = CMD_WRITE) ∧
      (i.cmdaddr = 0xfe00 ∨ (0xfe02 ≤ i.cmdaddr ∧ i.cmdaddr ≤ 0xfe07)) := by
  have hd := decode_iff i s
  cases ins
  · have h1 := hd.1.mp h; omega
  · have h1 := hd.2.1.mp h; omega
  · have h1 := hd.2.2.1.mp h; omega
  · have h1 := hd.2.2.2.1.mp h; omega
  · have h1 := hd.2.2.2.2.1.mp h; omega
  · have h1 := hd.2.2.2.2.2.1.mp h; omega
  · have h1 := hd.2.2.2.2.2.2.mp h; omega

/-- C11: the valid predicate holds exactly when `cmd` is `READ` (1) or `WRITE`
(2); each of the seven decode predicates implies it, so a cycle that is not
valid (`cmd = NOP = 0`, likewise `cmd = 3`) satisfies no instruction's decode and
no instruction fires. -/
theorem valid_predicate (i : Inputs) (s : ShaState) :
    (valid i s = true ↔ i.cmd = CMD_READ ∨ i.cmd = CMD_WRITE) ∧
      (∀ ins : Instr, decode ins i s = true → valid i s = true) ∧
      (valid i s = false → (∀ ins : Instr, decode ins i s = false) ∧ fired i s = none) ∧
      (i.cmd = CMD_NOP ∨ i.cmd = 3 → valid i s = false) := by
  have hv := valid_iff i s
  have hdec : ∀ ins : Instr, decode ins i s = true → valid i s = true :=
    fun ins h => hv.mpr (decode_cmd_addr ins i s h).1
  refine ⟨hv, hdec, ?_, ?_⟩
  · intro hnv
    have hall : ∀ ins : Instr, decode ins i s = false := by
      intro ins
      cases hd : decode ins i s with
      | false => rfl
      | true => rw [hdec ins hd] at hnv; cases hnv
    refine ⟨hall, ?_⟩
    simp [fired, hall]
  · intro hc
    cases hvv : valid i s with
    | false => rfl
    | true =>
      have := hv.mp hvv
      simp only [CMD_NOP, CMD_READ, CMD_WRITE] at hc this
      omega

/-- C11 at concrete inputs: a `NOP` cycle at a mapped address is not valid and
decodes nothing, while a write to `0xfe02` is valid. -/
theorem valid_predicate_witness :
    valid ⟨0, 0xfe02, 1⟩ sampleState = false ∧
      (∀ ins : Instr, decode ins ⟨0, 0xfe02, 1⟩ sampleState = false) ∧
      valid ⟨2, 0xfe02, 1⟩ sampleState = true :=
  ⟨(valid_predicate ⟨0, 0xfe02, 1⟩ sampleState).2.2.2 (Or.inl rfl),
    ((valid_predicate ⟨0, 0xfe02, 1⟩ sampleState).2.2.1
      ((valid_predicate ⟨0, 0xfe02, 1⟩ sampleState).2.2.2 (Or.inl rfl))).1,
    (valid_predicate ⟨2, 0xfe02, 1⟩ sampleState).1.mpr (Or.inr rfl)⟩

/-- C12: the decodes carry the register map bit-exactly: `WRITE_RD_ADDR` /
`READ_RD_ADDR` decode iff `cmd` is `WRITE` / `READ` and `cmdaddr` is `0xfe02` or
`0xfe03`; `WRITE_WR_ADDR` / `READ_WR_ADDR` iff `cmdaddr` is `0xfe04` or `0xfe05`;
`WRITE_LEN` / `READ_LEN` iff `cmdaddr` is `0xfe06` or `0xfe07`; `START_SHA` iff
`cmd = WRITE`, `cmdaddr = 0xfe00` and `cmddata = 1`.  Every decoded address is
below the address-space end `0xfe10` and none equals `STATE = 0xfe01`. -/
theorem register_map (i : Inputs) (s : ShaState) :
    (decode .WRITE_RD_ADDR i s = true ↔
      i.cmd = CMD_WRITE ∧ (i.cmdaddr = 0xfe02 ∨ i.cmdaddr = 0xfe03)) ∧
    (decode .READ_RD_ADDR i s = true ↔
      i.cmd = CMD_READ ∧ (i.cmdaddr = 0xfe02 ∨ i.cmdaddr = 0xfe03)) ∧
    (decode .WRITE_WR_ADDR i s = true ↔
      i.cmd = CMD_WRITE ∧ (i.cmdaddr = 0xfe04 ∨ i.cmdaddr = 0xfe05)) ∧
    (decode .READ_WR_ADDR i s = true ↔
      i.cmd = CMD_READ ∧ (i.cmdaddr = 0xfe04 ∨ i.cmdaddr = 0xfe05)) ∧
    (decode .WRITE_LEN i s = true ↔
      i.cmd = CMD_WRITE ∧ (i.cmdaddr = 0xfe06 ∨ i.cmdaddr = 0xfe07)) ∧
    (decode .READ_LEN i s = true ↔
      i.cmd = CMD_READ ∧ (i.cmdaddr = 0xfe06 ∨ i.cmdaddr = 0xfe07)) ∧
    (decode .START_SHA i s = true ↔
      i.cmd = CMD_WRITE ∧ i.cmdaddr = 0xfe00 ∧ i.cmddata = 1) ∧
    (∀ ins : Instr, decode ins i s = true →
      i.cmdaddr < SHA_ADDR_END ∧ i.cmdaddr ≠ SHA_STATE) := by
  have hd := decode_iff i s
  refine ⟨hd.1, hd.2.2.2.1, hd.2.1, hd.2.2.2.2.1, hd.2.2.1, hd.2.2.2.2.2.1,
    hd.2.2.2.2.2.2, ?_⟩
  intro ins h
  have ha := (decode_cmd_addr ins i s h).2
  simp only [SHA_ADDR_END, SHA_STATE]
  omega

/-- C12 at a concrete input: a read of `0xfe07` decodes `READ_LEN`, at an
address below `0xfe10` and different from `0xfe01`. -/
theorem register_map_witness :
    decode .READ_LEN ⟨1, 0xfe07, 0⟩ sampleState = true ∧
      (0xfe07 : Nat) < SHA_ADDR_END ∧ (0xfe07 : Nat) ≠ SHA_STATE :=
  ⟨(register_map ⟨1, 0xfe07, 0⟩ sampleState).2.2.2.2.2.1.mpr ⟨rfl, Or.inr rfl⟩,
    (register_map ⟨1, 0xfe07, 0⟩ sampleState).2.2.2.2.2.2.2 .READ_LEN
      ((register_map ⟨1, 0xfe07, 0⟩ sampleState).2.2.2.2.2.1.mpr ⟨rfl, Or.inr rfl⟩)⟩

/-! ## Fetch expression -/

/-- C13: the fetch word is the 26-bit concatenation `cmd ++ cmdaddr ++ cmddata`
of value `cmd * 2^24 + cmdaddr * 2^8 + cmddata`, with `cmd` in the two most
significant bits and `cmddata` in the eight least significant bits; two input
valuations with the same fetch word agree on `cmd`, `cmdaddr` and `cmddata`. -/
theorem fetch_word (i j : Inputs) (hi : i.wf) (hj : j.wf) :
    (fetch i).width = 26 ∧
      (fetch i).val = i.cmd * 2 ^ 24 + i.cmdaddr * 2 ^ 8 + i.cmddata ∧
      (fetch i).val < 2 ^ 26 ∧
      (Extract (fetch i) 25 24).val = i.cmd ∧
      (Extract (fetch i) 23 8).val = i.cmdaddr ∧
      (Extract (fetch i) 7 0).val = i.cmddata ∧
      (fetch i = fetch j → i.cmd = j.cmd ∧ i.cmdaddr = j.cmdaddr ∧ i.cmddata = j.cmddata) := by
  obtain ⟨hc, ha, hd⟩ := hi
  obtain ⟨hc2, ha2, hd2⟩ := hj
  have hval : ∀ k : Inputs, (fetch k).val = k.cmd * 2 ^ 24 + k.cmdaddr * 2 ^ 8 + k.cmddata := by
    intro k
    simp only [fetch, Concat, cmdE, cmdaddrE, cmddataE]
    omega
  refine ⟨rfl, hval i, ?_, ?_, ?_, ?_, ?_⟩
  · rw [hval]; omega
  · simp only [Extract, hval]; omega
  · simp only [Extract, hval]; omega
  · simp only [Extract, hval]; omega
  · intro h
    have hv : (fetch i).val = (fetch j).val := by rw [h]
    rw [hval, hval] at hv
    omega

/-- C13 at a concrete input: the fetch word of a write of `0x34` to `0xfe02` is
`2 * 2^24 + 0xfe02 * 2^8 + 0x34`, 26 bits wide. -/
theorem fetch_word_witness :
    Inputs.wf ⟨2, 0xfe02, 0x34⟩ ∧ (fetch ⟨2, 0xfe02, 0x34⟩).width = 26 ∧
      (fetch ⟨2, 0xfe02, 0x34⟩).val = 2 * 2 ^ 24 + 0xfe02 * 2 ^ 8 + 0x34 :=
  ⟨by simp [Inputs.wf],
    (fetch_word ⟨2, 0xfe02, 0x34⟩ ⟨2, 0xfe02, 0x34⟩ (by simp [Inputs.wf])
      (by simp [Inputs.wf])).1,
    (fetch_word ⟨2, 0xfe02, 0x34⟩ ⟨2, 0xfe02, 0x34⟩ (by simp [Inputs.wf])
      (by simp [Inputs.wf])).2.1⟩

/-! ## Sorts of the updates -/

/-- C14, the code against the claim: the updates of the three writes are 16
bits wide and those of the three reads 8 bits wide, as their targets are; the
update of `START_SHA`, `Ite(is_status_idle, BvConst(1, 2), unknown(2)())`, is 2
bits wide in both branches while its target `sha_state` is declared 3 bits wide,
so `START_SHA` is not well-sorted in any pre-state. -/
theorem update_sorts :
    (∀ (i : Inputs) (u : Nat) (s : ShaState),
      wellSorted .WRITE_RD_ADDR i u s = true ∧ wellSorted .WRITE_WR_ADDR i u s = true ∧
        wellSorted .WRITE_LEN i u s = true ∧ wellSorted .READ_RD_ADDR i u s = true ∧
        wellSorted .READ_WR_ADDR i u s = true ∧ wellSorted .READ_LEN i u s = true) ∧
      (∀ (i : Inputs) (u : Nat) (s : ShaState), wellSorted .START_SHA i u s = false) ∧
      (∀ (u : Nat) (s : ShaState), (start_sha_update u s).width = 2) ∧
      (BvConst 1 2).width = 2 ∧ (∀ u : Nat, (unknown 2 u).width = 2) ∧
      bvWidth .state = some 3 ∧
      wellSorted .START_SHA ⟨CMD_WRITE, 0xfe00, 1⟩ 0 sampleState = false := by
  have hstart : ∀ (u : Nat) (s : ShaState), (start_sha_update u s).width = 2 := by
    intro u s
    simp only [start_sha_update, Ite, BvConst, unknown]
    split_ifs <;> rfl
  have hbad : ∀ (i : Inputs) (u : Nat) (s : ShaState), wellSorted .START_SHA i u s = false := by
    intro i u s
    simp [wellSorted, updates, bvWidth, hstart]
  refine ⟨?_, hbad, hstart, rfl, fun _ => rfl, rfl, hbad _ _ _⟩
  intro i u s
  refine ⟨?_, ?_, ?_, ?_, ?_, ?_⟩
  · simp only [wellSorted, updates, bvWidth, List.all_cons, List.all_nil, Bool.and_true,
      beq_iff_eq, write_rd_addr_update, Ite, Concat, Extract, cmddataE, rdaddrE]
    split_ifs <;> rfl
  · simp only [wellSorted, updates, bvWidth, List.all_cons, List.all_nil, Bool.and_true,
      beq_iff_eq, write_wr_addr_update, Ite, Concat, Extract, cmddataE, wraddrE]
    split_ifs <;> rfl
  · simp only [wellSorted, updates, bvWidth, List.all_cons, List.all_nil, Bool.and_true,
      beq_iff_eq, write_len_update, Ite, Concat, Extract, cmddataE, oplenE]
    split_ifs <;> rfl
  · simp only [wellSorted, updates, bvWidth, List.all_cons, List.all_nil, Bool.and_true,
      beq_iff_eq, slice_read, slice_read_from, Ite, Extract]
    split_ifs <;> rfl
  · simp only [wellSorted, updates, bvWidth, List.all_cons, List.all_nil, Bool.and_true,
      beq_iff_eq, slice_read, slice_read_from, Ite, Extract]
    split_ifs <;> rfl
  · simp only [wellSorted, updates, bvWidth, List.all_cons, List.all_nil, Bool.and_true,
      beq_iff_eq, slice_read, slice_read_from, Ite, Extract]
    split_ifs <;> rfl

/-! ## Lock persistence -/

/-- A step from a busy state on which `START_SHA` does not fire keeps `state`,
`rdaddr`, `wraddr`, `oplen` and `XRAM`. -/
theorem busy_step_keeps (i : Inputs) (u : Nat) (s : ShaState)
    (hbusy : s.state ≠ SHA_STATE_IDLE) (hns : fired i s ≠ some .START_SHA) :
    (next i u s).state = s.state ∧ (next i u s).rdaddr = s.rdaddr ∧
      (next i u s).wraddr = s.wraddr ∧ (next i u s).oplen = s.oplen ∧
      (next i u s).xram = s.xram := by
  have hidle : is_status_idle s = false := by
    simp [is_status_idle, EqC, stateE, hbusy]
  unfold next
  cases hf : fired i s with
  | none => exact ⟨rfl, rfl, rfl, rfl, rfl⟩
  | some ins =>
    cases ins with
    | START_SHA => exact absurd hf hns
    | WRITE_RD_ADDR =>
      simp [step, updates, nextBv, nextMem, lookupUpdate, write_rd_addr_update, hidle, Ite,
        rdaddrE]
    | WRITE_WR_ADDR =>
      simp [step, updates, nextBv, nextMem, lookupUpdate, write_wr_addr_update, hidle, Ite,
        wraddrE]
    | WRITE_LEN =>
      simp [step, updates, nextBv, nextMem, lookupUpdate, write_len_update, hidle, Ite,
        oplenE]
    | READ_RD_ADDR => simp [step, updates, nextBv, nextMem, lookupUpdate]
    | READ_WR_ADDR => simp [step, updates, nextBv, nextMem, lookupUpdate]
    | READ_LEN => simp [step, updates, nextBv, nextMem, lookupUpdate]

/-- C15: along every sequence of steps that starts in a state with
`state != IDLE` and in which `START_SHA` never fires (each step executes the
decoding instruction, or nothing when none decodes), `state`, `rdaddr`,
`wraddr`, `oplen` and `XRAM` have their initial values at every step; only
`dataout` may change. -/
theorem lock_persistence :
    ∀ (tr : List (Inputs × Nat)) (s : ShaState), s.state ≠ SHA_STATE_IDLE →
      startNeverFires tr s →
      ∀ t ∈ run tr s, t.state = s.state ∧ t.rdaddr = s.rdaddr ∧ t.wraddr = s.wraddr ∧
        t.oplen = s.oplen ∧ t.xram = s.xram
  | [], _, _, _ => by simp [run]
  | x :: xs, s, hbusy, hns => by
    have hk := busy_step_keeps x.1 x.2 s hbusy hns.1
    have hbusy2 : (next x.1 x.2 s).state ≠ SHA_STATE_IDLE := by rw [hk.1]; exact hbusy
    have ih := lock_persistence xs (next x.1 x.2 s) hbusy2 hns.2
    intro t ht
    rcases List.mem_cons.mp ht with h | h
    · rw [h]; exact hk
    · have h2 := ih t h
      exact ⟨h2.1.trans hk.1, h2.2.1.trans hk.2.1, h2.2.2.1.trans hk.2.2.1,
        h2.2.2.2.1.trans hk.2.2.2.1, h2.2.2.2.2.trans hk.2.2.2.2⟩

/-- C15 at a concrete run: from the busy state `OP1`, a write of `0x34` to
`0xfe02` followed by a read of `0xfe03` leaves `state` and `rdaddr` at their
initial values in both states reached, while the read changes `dataout` to
`0xab`. -/
theorem lock_persistence_witness :
    busyState.state ≠ SHA_STATE_IDLE ∧
      startNeverFires [(⟨2, 0xfe02, 0x34⟩, 0), (⟨1, 0xfe03, 0⟩, 0)] busyState ∧
      (∀ t ∈ run [(⟨2, 0xfe02, 0x34⟩, 0), (⟨1, 0xfe03, 0⟩, 0)] busyState,
        t.state = 2 ∧ t.rdaddr = 0xabcd) ∧
      (next ⟨1, 0xfe03, 0⟩ 0 (next ⟨2, 0xfe02, 0x34⟩ 0 busyState)).dataout = 0xab :=
  ⟨by decide, ⟨by decide, by decide, trivial⟩,
    fun t ht =>
      ⟨(lock_persistence [(⟨2, 0xfe02, 0x34⟩, 0), (⟨1, 0xfe03, 0⟩, 0)] busyState (by decide)
          ⟨by decide, by decide, trivial⟩ t ht).1,
        (lock_persistence [(⟨2, 0xfe02, 0x34⟩, 0), (⟨1, 0xfe03, 0⟩, 0)] busyState (by decide)
          ⟨by decide, by decide, trivial⟩ t ht).2.1⟩,
    by decide⟩

/-! ## Read noninterference -/

/-- C16: for each of `READ_RD_ADDR`, `READ_WR_ADDR`, `READ_LEN`, two runs of the
instruction that agree on `cmdaddr` and on the instruction's source register
(`rdaddr`, `wraddr`, `oplen` respectively) produce the same new `dataout`,
whatever `state`, `cmd`, `cmddata`, the old `dataout`, the other registers,
`XRAM` and the interpretation of the unknown are in the two runs. -/
theorem read_noninterference (i1 i2 : Inputs) (u1 u2 : Nat) (s1 s2 : ShaState)
    (haddr : i1.cmdaddr = i2.cmdaddr) :
    (s1.rdaddr = s2.rdaddr →
      (step .READ_RD_ADDR i1 u1 s1).dataout = (step .READ_RD_ADDR i2 u2 s2).dataout) ∧
    (s1.wraddr = s2.wraddr →
      (step .READ_WR_ADDR i1 u1 s1).dataout = (step .READ_WR_ADDR i2 u2 s2).dataout) ∧
    (s1.oplen = s2.oplen →
      (step .READ_LEN i1 u1 s1).dataout = (step .READ_LEN i2 u2 s2).dataout) := by
  refine ⟨?_, ?_, ?_⟩ <;> intro hreg
  · simp [step, updates, nextBv, lookupUpdate, rdaddrE, cmdaddrE, haddr, hreg]
  · simp [step, updates, nextBv, lookupUpdate, wraddrE, cmdaddrE, haddr, hreg]
  · simp [step, updates, nextBv, lookupUpdate, oplenE, cmdaddrE, haddr, hreg]

/-- C16 at concrete inputs: reading `0xfe03` in the idle and in the busy sample
state, with different `cmddata` and unknowns, gives the same `dataout`, for each
of the three registers. -/
theorem read_noninterference_witness :
    (step .READ_RD_ADDR ⟨1, 0xfe03, 0⟩ 0 sampleState).dataout =
        (step .READ_RD_ADDR ⟨1, 0xfe03, 9⟩ 5 busyState).dataout ∧
      (step .READ_WR_ADDR ⟨1, 0xfe05, 0⟩ 0 sampleState).dataout =
        (step .READ_WR_ADDR ⟨1, 0xfe05, 9⟩ 5 busyState).dataout ∧
      (step .READ_LEN ⟨1, 0xfe07, 0⟩ 0 sampleState).dataout =
        (step .READ_LEN ⟨1, 0xfe07, 9⟩ 5 busyState).dataout :=
  ⟨(read_noninterference ⟨1, 0xfe03, 0⟩ ⟨1, 0xfe03, 9⟩ 0 5 sampleState busyState rfl).1 rfl,
    (read_noninterference ⟨1, 0xfe05, 0⟩ ⟨1, 0xfe05, 9⟩ 0 5 sampleState busyState rfl).2.1 rfl,
    (read_noninterference ⟨1, 0xfe07, 0⟩ ⟨1, 0xfe07, 9⟩ 0 5 sampleState busyState rfl).2.2 rfl⟩

/-! ## Byte writes -/

/-- Value of a register after its write instruction in an idle state. -/
theorem idle_write_val (i : Inputs) (u : Nat) (s : ShaState)
    (hidle : s.state = SHA_STATE_IDLE) :
    (step .WRITE_RD_ADDR i u s).rdaddr =
        (if i.cmdaddr = SHA_RD_ADDR + 1 then i.cmddata else s.rdaddr / 2 ^ 8 % 2 ^ 8) * 2 ^ 8 +
          (if i.cmdaddr = SHA_RD_ADDR then i.cmddata else s.rdaddr % 2 ^ 8) ∧
      (step .WRITE_WR_ADDR i u s).wraddr =
        (if i.cmdaddr = SHA_WR_ADDR + 1 then i.cmddata else s.wraddr / 2 ^ 8 % 2 ^ 8) * 2 ^ 8 +
          (if i.cmdaddr = SHA_WR_ADDR then i.cmddata else s.wraddr % 2 ^ 8) ∧
      (step .WRITE_LEN i u s).oplen =
        (if i.cmdaddr = SHA_LEN + 1 then i.cmddata else s.oplen / 2 ^ 8 % 2 ^ 8) * 2 ^ 8 +
          (if i.cmdaddr = SHA_LEN then i.cmddata else s.oplen % 2 ^ 8) := by
  have hidle2 : is_status_idle s = true := by
    simp [is_status_idle, EqC, stateE, hidle]
  refine ⟨?_, ?_, ?_⟩
  · simp only [step, updates, nextBv, lookupUpdate, if_true, write_rd_addr_update, hidle2, Ite,
      EqC, Concat, Extract, cmdaddrE, cmddataE, rdaddrE, beq_iff_eq]
    split_ifs <;> simp
  · simp only [step, updates, nextBv, lookupUpdate, if_true, write_wr_addr_update, hidle2, Ite,
      EqC, Concat, Extract, cmdaddrE, cmddataE, wraddrE, beq_iff_eq]
    split_ifs <;> simp
  · simp only [step, updates, nextBv, lookupUpdate, if_true, write_len_update, hidle2, Ite,
      EqC, Concat, Extract, cmdaddrE, cmddataE, oplenE, beq_iff_eq]
    split_ifs <;> simp

/-- A write instruction leaves `state` as it is. -/
theorem write_keeps_state (i : Inputs) (u : Nat) (s : ShaState) :
    (step .WRITE_RD_ADDR i u s).state = s.state ∧
      (step .WRITE_WR_ADDR i u s).state = s.state ∧
      (step .WRITE_LEN i u s).state = s.state := by
  simp [step, updates, nextBv, lookupUpdate]

/-- C17: for each register `R` in `rdaddr`, `wraddr`, `oplen` with base `B`,
from any state with `state == IDLE`, writing byte `lo` at `B` and byte `hi` at
`B+1` yields `R == hi * 256 + lo` in either order of the two writes and whatever
`R` was before; and repeating the same in-range byte write gives the same `R` as
performing it once. -/
theorem byte_writes_commute (s : ShaState) (lo hi u1 u2 : Nat)
    (hidle : s.state = SHA_STATE_IDLE) (hlo : lo < 2 ^ 8) (hhi : hi < 2 ^ 8) :
    ((step .WRITE_RD_ADDR ⟨CMD_WRITE, SHA_RD_ADDR + 1, hi⟩ u2
          (step .WRITE_RD_ADDR ⟨CMD_WRITE, SHA_RD_ADDR, lo⟩ u1 s)).rdaddr = hi * 2 ^ 8 + lo ∧
      (step .WRITE_RD_ADDR ⟨CMD_WRITE, SHA_RD_ADDR, lo⟩ u2
          (step .WRITE_RD_ADDR ⟨CMD_WRITE, SHA_RD_ADDR + 1, hi⟩ u1 s)).rdaddr = hi * 2 ^ 8 + lo ∧
      ∀ a v : Nat, SHA_RD_ADDR ≤ a → a < SHA_RD_ADDR + 2 → v < 2 ^ 8 →
        (step .WRITE_RD_ADDR ⟨CMD_WRITE, a, v⟩ u2 (step .WRITE_RD_ADDR ⟨CMD_WRITE, a, v⟩ u1 s)).rdaddr =
          (step .WRITE_RD_ADDR ⟨CMD_WRITE, a, v⟩ u1 s).rdaddr) ∧
    ((step .WRITE_WR_ADDR ⟨CMD_WRITE, SHA_WR_ADDR + 1, hi⟩ u2
          (step .WRITE_WR_ADDR ⟨CMD_WRITE, SHA_WR_ADDR, lo⟩ u1 s)).wraddr = hi * 2 ^ 8 + lo ∧
      (step .WRITE_WR_ADDR ⟨CMD_WRITE, SHA_WR_ADDR, lo⟩ u2
          (step .WRITE_WR_ADDR ⟨CMD_WRITE, SHA_WR_ADDR + 1, hi⟩ u1 s)).wraddr = hi * 2 ^ 8 + lo ∧
      ∀ a v : Nat, SHA_WR_ADDR ≤ a → a < SHA_WR_ADDR + 2 → v < 2 ^ 8 →
        (step .WRITE_WR_ADDR ⟨CMD_WRITE, a, v⟩ u2 (step .WRITE_WR_ADDR ⟨CMD_WRITE, a, v⟩ u1 s)).wraddr =
          (step .WRITE_WR_ADDR ⟨CMD_WRITE, a, v⟩ u1 s).wraddr) ∧
    ((step .WRITE_LEN ⟨CMD_WRITE, SHA_LEN + 1, hi⟩ u2
          (step .WRITE_LEN ⟨CMD_WRITE, SHA_LEN, lo⟩ u1 s)).oplen = hi * 2 ^ 8 + lo ∧
      (step .WRITE_LEN ⟨CMD_WRITE, SHA_LEN, lo⟩ u2
          (step .WRITE_LEN ⟨CMD_WRITE, SHA_LEN + 1, hi⟩ u1 s)).oplen = hi * 2 ^ 8 + lo ∧
      ∀ a v : Nat, SHA_LEN ≤ a → a < SHA_LEN + 2 → v < 2 ^ 8 →
        (step .WRITE_LEN ⟨CMD_WRITE, a, v⟩ u2 (step .WRITE_LEN ⟨CMD_WRITE, a, v⟩ u1 s)).oplen =
          (step .WRITE_LEN ⟨CMD_WRITE, a, v⟩ u1 s).oplen) := by
  refine ⟨?_, ?_, ?_⟩
  · have w1 := fun (i : Inputs) (u : Nat) => (idle_write_val i u s hidle).1
    have w2 := fun (i j : Inputs) (u v : Nat) =>
      (idle_write_val i u (step .WRITE_RD_ADDR j v s)
        (((write_keeps_state j v s).1).trans hidle)).1
    refine ⟨?_, ?_, ?_⟩
    · rw [w2, w1]
      simp [SHA_RD_ADDR]
      omega
    · rw [w2, w1]
      simp [SHA_RD_ADDR]
      omega
    · intro a v h1 h2 hv
      rw [w2, w1]
      have ha : a = SHA_RD_ADDR ∨ a = SHA_RD_ADDR + 1 := by omega
      rcases ha with ha | ha <;> subst ha <;> simp [SHA_RD_ADDR] <;> omega
  · have w1 := fun (i : Inputs) (u : Nat) => (idle_write_val i u s hidle).2.1
    have w2 := fun (i j : Inputs) (u v : Nat) =>
      (idle_write_val i u (step .WRITE_WR_ADDR j v s)
        (((write_keeps_state j v s).2.1).trans hidle)).2.1
    refine ⟨?_, ?_, ?_⟩
    · rw [w2, w1]
      simp [SHA_WR_ADDR]
      omega
    · rw [w2, w1]
      simp [SHA_WR_ADDR]
      omega
    · intro a v h1 h2 hv
      rw [w2, w1]
      have ha : a = SHA_WR_ADDR ∨ a = SHA_WR_ADDR + 1 := by omega
      rcases ha with ha | ha <;> subst ha <;> simp [SHA_WR_ADDR] <;> omega
  · have w1 := fun (i : Inputs) (u : Nat) => (idle_write_val i u s hidle).2.2
    have w2 := fun (i j : Inputs) (u v : Nat) =>
      (idle_write_val i u (step .WRITE_LEN j v s)
        (((write_keeps_state j v s).2.2).trans hidle)).2.2
    refine ⟨?_, ?_, ?_⟩
    · rw [w2, w1]
      simp [SHA_LEN]
      omega
    · rw [w2, w1]
      simp [SHA_LEN]
      omega
    · intro a v h1 h2 hv
      rw [w2, w1]
      have ha : a = SHA_LEN ∨ a = SHA_LEN + 1 := by omega
      rcases ha with ha | ha <;> subst ha <;> simp [SHA_LEN] <;> omega

/-- C17 at concrete inputs: writing `0x34` to `0xfe02` and `0x12` to `0xfe03`
in the idle sample state gives `rdaddr = 0x1234` in both orders. -/
theorem byte_writes_commute_witness :
    sampleState.state = SHA_STATE_IDLE ∧
      (step .WRITE_RD_ADDR ⟨CMD_WRITE, SHA_RD_ADDR + 1, 0x12⟩ 0
          (step .WRITE_RD_ADDR ⟨CMD_WRITE, SHA_RD_ADDR, 0x34⟩ 0 sampleState)).rdaddr =
        0x12 * 2 ^ 8 + 0x34 ∧
      (step .WRITE_RD_ADDR ⟨CMD_WRITE, SHA_RD_ADDR, 0x34⟩ 0
          (step .WRITE_RD_ADDR ⟨CMD_WRITE, SHA_RD_ADDR + 1, 0x12⟩ 0 sampleState)).rdaddr =
        0x12 * 2 ^ 8 + 0x34 :=
  ⟨rfl, (byte_writes_commute sampleState 0x34 0x12 0 0 rfl (by decide) (by decide)).1.1,
    (byte_writes_commute sampleState 0x34 0x12 0 0 rfl (by decide) (by decide)).1.2.1⟩

/-! ## Valid but not decoded -/

/-- When no decode holds, no instruction fires and the step changes nothing. -/
theorem next_of_no_decode (i : Inputs) (u : Nat) (s : ShaState)
    (h : ∀ ins : Instr, decode ins i s = false) : fired i s = none ∧ next i u s = s := by
  have hf : fired i s = none := by simp [fired, h]
  exact ⟨hf, by simp [next, hf]⟩

/-- C18: some input valuations satisfy the valid predicate and no instruction's
decode: a `READ` of `0xfe00`, a `WRITE` to `0xfe00` with `cmddata != 1`, and
any `READ` or `WRITE` at `0xfe01`; on such a step no instruction fires and the
state is unchanged.  So a decode implies valid, but valid does not imply that
some instruction decodes. -/
theorem valid_not_decoded :
    (∀ (s : ShaState) (d : Nat),
      valid ⟨CMD_READ, SHA_START, d⟩ s = true ∧
        (∀ ins : Instr, decode ins ⟨CMD_READ, SHA_START, d⟩ s = false) ∧
        fired ⟨CMD_READ, SHA_START, d⟩ s = none ∧
        ∀ u : Nat, next ⟨CMD_READ, SHA_START, d⟩ u s = s) ∧
    (∀ (s : ShaState) (d : Nat), d ≠ 1 →
      valid ⟨CMD_WRITE, SHA_START, d⟩ s = true ∧
        (∀ ins : Instr, decode ins ⟨CMD_WRITE, SHA_START, d⟩ s = false) ∧
        fired ⟨CMD_WRITE, SHA_START, d⟩ s = none ∧
        ∀ u : Nat, next ⟨CMD_WRITE, SHA_START, d⟩ u s = s) ∧
    (∀ (s : ShaState) (c d : Nat), c = CMD_READ ∨ c = CMD_WRITE →
      valid ⟨c, SHA_STATE, d⟩ s = true ∧
        (∀ ins : Instr, decode ins ⟨c, SHA_STATE, d⟩ s = false) ∧
        fired ⟨c, SHA_STATE, d⟩ s = none ∧
        ∀ u : Nat, next ⟨c, SHA_STATE, d⟩ u s = s) ∧
    (∀ (i : Inputs) (s : ShaState),
      (∃ ins : Instr, decode ins i s = true) → valid i s = true) ∧
    ¬ (∀ (i : Inputs) (s : ShaState),
      valid i s = true → ∃ ins : Instr, decode ins i s = true) := by
  have h1 : ∀ (s : ShaState) (d : Nat) (ins : Instr),
      decode ins ⟨CMD_READ, SHA_START, d⟩ s = false := by
    intro s d ins
    cases ins <;>
      simp [decode, EqC, cmdE, cmdaddrE, cmddataE, CMD_READ, CMD_WRITE, SHA_START,
        SHA_RD_ADDR, SHA_WR_ADDR, SHA_LEN]
  have h2 : ∀ (s : ShaState) (d : Nat), d ≠ 1 → ∀ ins : Instr,
      decode ins ⟨CMD_WRITE, SHA_START, d⟩ s = false := by
    intro s d hd ins
    cases ins <;>
      simp [decode, EqC, cmdE, cmdaddrE, cmddataE, CMD_READ, CMD_WRITE, SHA_START,
        SHA_RD_ADDR, SHA_WR_ADDR, SHA_LEN, hd]
  have h3 : ∀ (s : ShaState) (c d : Nat) (ins : Instr),
      decode ins ⟨c, SHA_STATE, d⟩ s = false := by
    intro s c d ins
    cases ins <;>
      simp [decode, EqC, cmdE, cmdaddrE, cmddataE, CMD_READ, CMD_WRITE, SHA_START,
        SHA_RD_ADDR, SHA_WR_ADDR, SHA_LEN, SHA_STATE]
  refine ⟨?_, ?_, ?_, ?_, ?_⟩
  · intro s d
    exact ⟨(valid_iff _ s).mpr (Or.inl rfl), h1 s d, (next_of_no_decode _ 0 s (h1 s d)).1,
      fun u => (next_of_no_decode _ u s (h1 s d)).2⟩
  · intro s d hd
    exact ⟨(valid_iff _ s).mpr (Or.inr rfl), h2 s d hd,
      (next_of_no_decode _ 0 s (h2 s d hd)).1,
      fun u => (next_of_no_decode _ u s (h2 s d hd)).2⟩
  · intro s c d hc
    exact ⟨(valid_iff _ s).mpr hc, h3 s c d, (next_of_no_decode _ 0 s (h3 s c d)).1,
      fun u => (next_of_no_decode _ u s (h3 s c d)).2⟩
  · rintro i s ⟨ins, h⟩
    exact (valid_iff i s).mpr (decode_cmd_addr ins i s h).1
  · intro hall
    obtain ⟨ins, h⟩ := hall ⟨CMD_READ, SHA_START, 0⟩ sampleState
      ((valid_iff _ _).mpr (Or.inl rfl))
    rw [h1 sampleState 0 ins] at h
    cases h

end SHA
